import Mathlib

/-!
Verification of `tools/convert_old_latents_to_sdxl_multi_res.py`.

The script regroups per-resolution latent cache `.npz` files
(`<base>_<w>x<h>.npz`) into merged multi-resolution files
(`<base>_<OW>x<OH>_sdxl.npz`) whose keys carry a `_<lat_h>x<lat_w>` suffix.

Shallow embedding conventions:
* an `.npz` container is an association list from key to `NDArray`
  (shape plus flat integer data; numeric values are opaque payload);
* the filesystem is explicit: the source directory is a list of file
  names, loading is a lookup in a `path -> Container` association list,
  and the destination directory is a list of pre-existing names plus the
  list of files written by the run;
* Python `sorted` on strings is modelled by an insertion sort over the
  code-point lexicographic order (any stable sort of strings yields the
  same list, so this is extensionally the behaviour of `sorted`);
* the regular expression `^(?P<base>.*)_(?P<w>\d+)x(?P<h>\d+)\.npz$` is
  modelled by `matchSourceName`, including `re.match` details: `.` does
  not match a newline, `$` also matches just before a single trailing
  newline, and `\d` is modelled as an ASCII digit;
* `raise ValueError(...)` / uncaught exceptions are modelled with
  `Except String` (in the merger) or an `errorMsg` field (in `main`,
  which aborts mid-run keeping the files already written).
-/

/-- An in-memory numpy array: its shape and (flattened) integer payload.
The tool never inspects numeric contents except for `original_size`,
which in the old cache format is a one-dimensional integer array, so the
Python coercion `tuple(int(v) for v in a.tolist())` reads off `data`. -/
structure NDArray where
  shape : List Nat
  data : List Int
deriving DecidableEq, Repr

/-- A loaded `.npz` container: keys with their arrays (`np.load` result). -/
abbrev Container := List (String × NDArray)

/-- `key in npz` (membership test on a loaded container). -/
def hasKeyC (c : Container) (k : String) : Bool :=
  c.any (fun p => p.1 == k)

/-- `npz[key]` (array stored under a key; junk default if absent,
only ever read under a `hasKeyC` guard, as in the script). -/
def getC (c : Container) (k : String) : NDArray :=
  match c.find? (fun p => p.1 == k) with
  | some p => p.2
  | none => ⟨[], []⟩

/-- Decidable equality of run results (used to evaluate the model on
concrete inputs). -/
instance exceptDecEq {ε α : Type} [DecidableEq ε] [DecidableEq α] :
    DecidableEq (Except ε α) := fun x y =>
  match x, y with
  | .error e, .error f =>
    if h : e = f then isTrue (h ▸ rfl) else isFalse (fun hc => h (Except.error.inj hc))
  | .error _, .ok _ => isFalse (fun hc => Except.noConfusion hc)
  | .ok _, .error _ => isFalse (fun hc => Except.noConfusion hc)
  | .ok a, .ok b =>
    if h : a = b then isTrue (h ▸ rfl) else isFalse (fun hc => h (Except.ok.inj hc))

/-- Python `str(tuple)` rendering, given the rendered elements. -/
def pyTupleStr (xs : List String) : String :=
  match xs with
  | [] => "()"
  | [x] => "(" ++ x ++ ",)"
  | x :: rest => "(" ++ x ++ (rest.foldl (fun acc y => acc ++ ", " ++ y) "") ++ ")"

/-- Python `str` of a tuple of integers, e.g. `(1024, 1536)`. -/
def pyTupleInt (xs : List Int) : String := pyTupleStr (xs.map toString)

/-- Python `str` of a shape tuple, e.g. `(4, 32, 48)` or `(32,)`. -/
def pyTupleNat (xs : List Nat) : String := pyTupleStr (xs.map toString)

/-! ### String order and `sorted` -/

/-- Code-point comparison of character lists: Python `str` comparison. -/
def charListLe : List Char → List Char → Bool
  | [], _ => true
  | _ :: _, [] => false
  | a :: as, b :: bs =>
    if a.toNat < b.toNat then true
    else if b.toNat < a.toNat then false
    else charListLe as bs

/-- Python `<=` on strings (lexicographic by code point). -/
def strLe (a b : String) : Bool := charListLe a.data b.data

/-- `strLe` as a relation, for the sort. -/
def strLeP (a b : String) : Prop := strLe a b = true

instance : DecidableRel strLeP := fun a b => by unfold strLeP; infer_instance

/-- Python `sorted` on a list of strings (lexicographic by code point).
An insertion sort — extensionally the unique sorted permutation of its
input, which is what `sorted` returns (stability is vacuous on strings:
entries comparing equal are identical). -/
def sortStrings (l : List String) : List String := l.insertionSort strLeP

/-! ### The filename pattern `SOURCE_NAME_RE` -/

/-- Start code points of the Unicode `Nd` (decimal digit) blocks, each
block holding the ten consecutive digits 0-9 of one script (Unicode
14.0, the table of CPython 3.11; `unicodedata.category` was checked
against this list character by character). `\d` in a Python `str`
pattern compiled without `re.ASCII` matches exactly the characters of
these blocks, not only `0`-`9`. -/
def ndRangeStarts : List Nat :=
  [0x30, 0x660, 0x6F0, 0x7C0, 0x966, 0x9E6, 0xA66, 0xAE6, 0xB66, 0xBE6,
   0xC66, 0xCE6, 0xD66, 0xDE6, 0xE50, 0xED0, 0xF20, 0x1040, 0x1090, 0x17E0,
   0x1810, 0x1946, 0x19D0, 0x1A80, 0x1A90, 0x1B50, 0x1BB0, 0x1C40, 0x1C50, 0xA620,
   0xA8D0, 0xA900, 0xA9D0, 0xA9F0, 0xAA50, 0xABF0, 0xFF10, 0x104A0, 0x10D30, 0x11066,
   0x110F0, 0x11136, 0x111D0, 0x112F0, 0x11450, 0x114D0, 0x11650, 0x116C0, 0x11730, 0x118E0,
   0x11950, 0x11C50, 0x11D50, 0x11DA0, 0x16A60, 0x16AC0, 0x16B50, 0x1D7CE, 0x1D7D8,
   0x1D7E2, 0x1D7EC, 0x1D7F6, 0x1E140, 0x1E2F0, 0x1E950, 0x1FBF0]

/-- The character class `\d` of `SOURCE_NAME_RE`: any Unicode decimal
digit (category `Nd`), since the pattern is a `str` pattern and the
script does not pass `re.ASCII`. -/
def isPyDigit (c : Char) : Bool :=
  ndRangeStarts.any (fun s => decide (s ≤ c.toNat) && decide (c.toNat < s + 10))

/-- Worker for `matchSourceName`, on the reversed character list of the
name: recognises `reverse (<base> ++ "_" ++ <w> ++ "x" ++ <h> ++ ".npz")`
with `<w>`, `<h>` nonempty runs of Unicode decimal digits (`\d`) and
`<base>` free of newlines
(`.` in the regex does not match a newline). Returns `(base, w, h)`
un-reversed. Taking maximal digit runs from the right is exactly the
greedy `(?P<base>.*)` split: any shorter run would leave a digit where
`x` or `_` is required. -/
def matchRev (rcs : List Char) : Option (List Char × List Char × List Char) :=
  match rcs with
  | 'z' :: 'p' :: 'n' :: '.' :: rest =>
    if (rest.takeWhile isPyDigit).isEmpty then none else
    match rest.dropWhile isPyDigit with
    | 'x' :: rest2 =>
      if (rest2.takeWhile isPyDigit).isEmpty then none else
      match rest2.dropWhile isPyDigit with
      | '_' :: baserev =>
        if baserev.contains '\n' then none
        else some (baserev.reverse, (rest2.takeWhile isPyDigit).reverse,
          (rest.takeWhile isPyDigit).reverse)
      | _ => none
    | _ => none
  | _ => none

/-- `$` in `re.match` also matches just before one trailing newline:
strip it before anchoring the pattern at the end. -/
def stripNL (cs : List Char) : List Char :=
  if cs.getLast? = some '\n' then cs.dropLast else cs

/-- `re.match(r"^(?P<base>.*)_(?P<w>\d+)x(?P<h>\d+)\.npz$", name)`,
returning the three captured groups. -/
def matchSourceName (name : String) : Option (String × String × String) :=
  match matchRev (stripNL name.data).reverse with
  | some (b, w, h) => some (String.mk b, String.mk w, String.mk h)
  | none => none

/-- The base identifier a filename is bucketed under, if it matches. -/
def baseOf (name : String) : Option String :=
  match matchSourceName name with
  | some (b, _, _) => some b
  | none => none

/-- The spec-side filename pattern, written from the spec's words: the
name splits as `<base>_<w>x<h>.npz` with `<w>`, `<h>` nonempty runs of
decimal digit characters (`\d`, so any Unicode `Nd` digit). The spec
asserts `<base>` is non-empty; this predicate leaves the base
unconstrained so the theorems can compare both readings against the
code's regex. -/
def isDigits (s : String) : Bool := !s.isEmpty && s.data.all isPyDigit

/-- See `isDigits`: the spec's decomposition of a source filename. -/
def splitSpec (name b w h : String) : Bool :=
  (name == b ++ "_" ++ w ++ "x" ++ h ++ ".npz") && isDigits w && isDigits h

/-! ### `collect_groups` -/

/-- `groups[base].append(path)` on an insertion-ordered association list
(`collections.defaultdict(list)` keyed in first-appearance order). -/
def addToGroup : List (String × List String) → String → String → List (String × List String)
  | [], base, path => [(base, [path])]
  | (b, ps) :: rest, base, path =>
    if b == base then (b, ps ++ [path]) :: rest
    else (b, ps) :: addToGroup rest base path

/-- `collect_groups` body: walk the globbed listing, match each name,
bucket by base; the first non-matching name raises. `groups` is the
accumulator (called with `[]`). In the embedding a path is its file
name: all paths share the `src_dir` prefix, which changes neither
lexicographic order nor any comparison made by the script. -/
def collect_groups : List String → List (String × List String) → Except String (List (String × List String))
  | [], groups => .ok groups
  | name :: rest, groups =>
    match matchSourceName name with
    | none => .error ("Unexpected source filename format: " ++ name)
    | some (b, _, _) => collect_groups rest (addToGroup groups b name)

/-- Boolean: is the first list an initial run of the second? -/
def startsList : List Char → List Char → Bool
  | [], _ => true
  | _ :: _, [] => false
  | a :: as, b :: bs => (a == b) && startsList as bs

/-- `fnmatch` of a name against the glob pattern `*.npz`. -/
def npzName (n : String) : Bool := startsList ['z', 'p', 'n', '.'] n.data.reverse

/-- Glob hides names starting with a dot (the pattern does not start with one). -/
def hiddenName (n : String) : Bool :=
  match n.data with
  | [] => false
  | c :: _ => c == '.'

/-- `glob.glob(os.path.join(src_dir, "*.npz"))` over a directory listing:
keeps names ending in `.npz`, hiding dot-files; listing order is whatever
the OS returned, which the script never sorts at this stage. -/
def globNpz (listing : List String) : List String :=
  listing.filter (fun n => npzName n && !hiddenName n)

/-! ### `convert_group` -/

/-- The five recognized key bases, in the order the script tries them. -/
def MERGED_KEY_BASES : List String :=
  ["latents", "original_size", "crop_ltrb", "latents_flipped", "alpha_mask"]

/-- The inner `for key_base in MERGED_KEY_BASES` loop of `convert_group`:
for each key base present in the container, append `key_base + suffix`
to the merged mapping, failing if that key is already bound. -/
def mergedInsert (base : String) (c : Container) (sfx : String) :
    List String → List (String × NDArray) → Except String (List (String × NDArray))
  | [], merged => .ok merged
  | keyBase :: rest, merged =>
    if hasKeyC c keyBase then
      let mergedKey := keyBase ++ sfx
      if merged.any (fun p => p.1 == mergedKey) then
        .error ("Duplicate merged key '" ++ mergedKey ++ "' for base '" ++ base ++ "'")
      else
        mergedInsert base c sfx rest (merged ++ [(mergedKey, getC c keyBase)])
    else
      mergedInsert base c sfx rest merged

/-- Steps 4-5 of processing one file: read the `latents` shape, require
at least two dimensions, take the last two as (height, width), build the
suffix and run the key-insertion loop. `adopted` is the group's
original size after the consistency check. -/
def processShape (base path : String) (c : Container)
    (merged : List (String × NDArray)) (adopted : List Int) :
    Except String (List (String × NDArray) × List Int) :=
  match (getC c "latents").shape.reverse with
  | latw :: lath :: _ =>
    match mergedInsert base c ("_" ++ toString lath ++ "x" ++ toString latw) MERGED_KEY_BASES merged with
    | .ok m => .ok (m, adopted)
    | .error e => .error e
  | _ =>
    .error ("Invalid latents shape in " ++ path ++ ": " ++ pyTupleNat (getC c "latents").shape)

/-- The body of `convert_group`'s `for path in sorted(paths)` loop for a
single opened container: required-key check, `original_size` coercion
and consistency check against the state, then the shape/insertion part. -/
def processFile (base path : String) (c : Container)
    (merged : List (String × NDArray)) (osz : Option (List Int)) :
    Except String (List (String × NDArray) × List Int) :=
  if !hasKeyC c "latents" || !hasKeyC c "original_size" || !hasKeyC c "crop_ltrb" then
    .error ("Missing required keys in " ++ path ++ "; required: latents, original_size, crop_ltrb")
  else
    let thisSize := (getC c "original_size").data
    match osz with
    | none => processShape base path c merged thisSize
    | some o =>
      if o = thisSize then
        processShape base path c merged o
      else
        .error ("Inconsistent original_size for '" ++ base ++ "': " ++ pyTupleInt o ++
          " vs " ++ pyTupleInt thisSize ++ " (" ++ path ++ ")")

/-- `np.load(path)`: look the path up in the explicit filesystem. -/
def lookupFS (fs : List (String × Container)) (p : String) : Option Container :=
  match fs.find? (fun q => q.1 == p) with
  | some q => some q.2
  | none => none

/-- The `for path in sorted(paths)` loop of `convert_group`, threading
the merged mapping and the adopted original size. A path absent from
the filesystem is `np.load` raising `FileNotFoundError`. -/
def convertLoop (fs : List (String × Container)) (base : String) :
    List String → List (String × NDArray) → Option (List Int) →
    Except String (List (String × NDArray) × Option (List Int))
  | [], merged, osz => .ok (merged, osz)
  | path :: rest, merged, osz =>
    match lookupFS fs path with
    | none => .error ("FileNotFoundError: " ++ path)
    | some c =>
      match processFile base path c merged osz with
      | .error e => .error e
      | .ok (m, o) => convertLoop fs base rest m (some o)

/-- `convert_group(base, paths)`: run the loop over the sorted paths from
empty state; if no original size was ever adopted the group was empty. -/
def convert_group (fs : List (String × Container)) (base : String) (paths : List String) :
    Except String (List (String × NDArray) × List Int) :=
  match convertLoop fs base (sortStrings paths) [] none with
  | .error e => .error e
  | .ok (_, none) => .error ("No input files found for base '" ++ base ++ "'")
  | .ok (m, some o) => .ok (m, o)

/-! ### `main`: the writer loop -/

/-- Left-pad a rendered number with zeros to the given width. -/
def padZeros (w : Nat) (s : String) : String :=
  String.mk (List.replicate (w - s.length) '0') ++ s

/-- Python `f"{v:04}"` on an integer: minimum width 4, zero filled,
the sign counting toward the width. -/
def pyFormat04 (v : Int) : String :=
  if v < 0 then "-" ++ padZeros 3 (toString v.natAbs) else padZeros 4 (toString v.natAbs)

/-- `f"{base}_{original_size[0]:04}x{original_size[1]:04}_sdxl.npz"`. -/
def outName (base : String) (ow oh : Int) : String :=
  base ++ "_" ++ pyFormat04 ow ++ "x" ++ pyFormat04 oh ++ "_sdxl.npz"

/-- One console line of the per-group loop: `[skip]`, `[plan]` or `[ok]`
followed by the output path. -/
inductive Event where
  | skip : String → Event
  | plan : String → Event
  | ok : String → Event
deriving DecidableEq, Repr

/-- Observable outcome of a run of `main` (modulo the summary line):
the per-group console events, the `written` and `skipped` counters, the
files created in the destination directory with their contents, and the
exception that aborted the run, if any. -/
structure MainResult where
  events : List Event
  written : Nat
  skipped : Nat
  files : List (String × List (String × NDArray))
  errorMsg : Option String
deriving DecidableEq, Repr

/-- `groups[base]` lookup for the collected buckets. -/
def lookupGroup (g : List (String × List String)) (b : String) : List String :=
  match g.find? (fun q => q.1 == b) with
  | some q => q.2
  | none => []

/-- `for base in sorted(groups.keys())` with the `groups[base]` fetch:
the iteration sequence of the main loop. -/
def sortedGroups (g : List (String × List String)) : List (String × List String) :=
  (sortStrings (g.map Prod.fst)).map (fun b => (b, lookupGroup g b))

/-- The per-group loop of `main`: convert, compute the output name,
then skip / plan / write. `pre` is the set of file names already present
in the destination directory before the run; a file also exists once
this run has written it. An uncaught exception stops the loop, keeping
everything already done. `original_size[0]`/`[1]` on a tuple with fewer
than two elements is an `IndexError`. -/
def mainLoop (fs : List (String × Container)) (ow dry : Bool) (pre : List String) :
    List (String × List String) → List Event → Nat → Nat →
    List (String × List (String × NDArray)) → MainResult
  | [], evs, w, s, files => ⟨evs, w, s, files, none⟩
  | (base, paths) :: rest, evs, w, s, files =>
    match convert_group fs base paths with
    | .error e => ⟨evs, w, s, files, some e⟩
    | .ok (merged, osz) =>
      match osz with
      | w0 :: h0 :: _ =>
        let name := outName base w0 h0
        if (pre.contains name || files.any (fun f => f.1 == name)) && !ow then
          mainLoop fs ow dry pre rest (evs ++ [Event.skip name]) w (s + 1) files
        else if dry then
          mainLoop fs ow dry pre rest (evs ++ [Event.plan name]) (w + 1) s files
        else
          mainLoop fs ow dry pre rest (evs ++ [Event.ok name]) (w + 1) s (files ++ [(name, merged)])
      | _ => ⟨evs, w, s, files, some "IndexError: tuple index out of range"⟩

/-- `main` after argument parsing and directory checks: glob the source
listing, collect groups (a bad filename aborts with nothing done), return
early if there are none, else run the writer loop over the sorted groups.
`fs` maps source paths to their loaded containers, `listing` is the
source directory contents, `pre` the destination directory contents,
`ow`/`dry` the `--overwrite`/`--dry-run` flags. -/
def runMain (fs : List (String × Container)) (listing : List String)
    (pre : List String) (ow dry : Bool) : MainResult :=
  match collect_groups (globNpz listing) [] with
  | .error e => ⟨[], 0, 0, [], some e⟩
  | .ok g =>
    if g.isEmpty then ⟨[], 0, 0, [], none⟩
    else mainLoop fs ow dry pre (sortedGroups g) [] 0 0 []

/-! ### Derived views used by the theorems -/

/-- Shape-derived latent (height, width): the last two dimensions. -/
def latDims (c : Container) : Option (Nat × Nat) :=
  match (getC c "latents").shape.reverse with
  | latw :: lath :: _ => some (lath, latw)
  | _ => none

/-- The `_<lat_h>x<lat_w>` suffix a container's keys receive. -/
def suffixOf (c : Container) : String :=
  match latDims c with
  | some (h, w) => "_" ++ toString h ++ "x" ++ toString w
  | none => ""

/-- Per-file validity: the three required keys are present and the
`latents` array has at least two dimensions. -/
def wfC (c : Container) : Bool :=
  hasKeyC c "latents" && hasKeyC c "original_size" && hasKeyC c "crop_ltrb" &&
    (latDims c).isSome

/-- The integer tuple a container's `original_size` is coerced to. -/
def osizeOf (c : Container) : List Int := (getC c "original_size").data

/-- The key/array pairs a container adds to the merged mapping when its
keys get suffix `sfx`, restricted to the key bases in `bases`. -/
def contribOn (c : Container) (sfx : String) (bases : List String) : List (String × NDArray) :=
  (bases.filter (fun kb => hasKeyC c kb)).map (fun kb => (kb ++ sfx, getC c kb))

/-- The key/array pairs one container adds to the merged mapping. -/
def contrib (c : Container) : List (String × NDArray) :=
  contribOn c (suffixOf c) MERGED_KEY_BASES

/-- The key list of a merged mapping. -/
def keysOf (m : List (String × NDArray)) : List String := m.map Prod.fst

/-- The merged-mapping contribution of a path under a filesystem. -/
def contribAt (fs : List (String × Container)) (p : String) : List (String × NDArray) :=
  contrib ((lookupFS fs p).getD [])

/-- Association-list lookup on a merged mapping (Python `dict` access). -/
def getA (m : List (String × NDArray)) (k : String) : Option NDArray :=
  match m.find? (fun q => q.1 == k) with
  | some q => some q.2
  | none => none

/-- `[plan]` line rewritten from an `[ok]` line; what `--dry-run` prints
in place of a write. -/
def okToPlanEv : Event → Event
  | Event.ok n => Event.plan n
  | e => e

/-- The output paths named by the `[plan]` lines of an event list. -/
def planNames : List Event → List String
  | [] => []
  | Event.plan n :: rest => n :: planNames rest
  | _ :: rest => planNames rest

/-! ## The string order: totality, transitivity, antisymmetry -/

theorem charToNat_inj {a b : Char} (h : a.toNat = b.toNat) : a = b :=
  Char.ext (UInt32.toNat.inj h)

theorem charListLe_cons {a b : Char} {as bs : List Char} :
    charListLe (a :: as) (b :: bs) = true ↔
      (a.toNat < b.toNat ∨ (a.toNat = b.toNat ∧ charListLe as bs = true)) := by
  simp only [charListLe]
  rcases Nat.lt_trichotomy a.toNat b.toNat with h | h | h
  · simp [h]
  · have h1 : ¬a.toNat < b.toNat := by omega
    have h2 : ¬b.toNat < a.toNat := by omega
    rw [if_neg h1, if_neg h2]
    simp [h]
  · have h1 : ¬a.toNat < b.toNat := by omega
    rw [if_neg h1, if_pos h]
    simp only [Bool.false_eq_true, false_iff]
    push_neg
    refine ⟨by omega, fun he => absurd he (by omega)⟩

theorem charListLe_total : ∀ as bs : List Char, charListLe as bs = true ∨ charListLe bs as = true := by
  intro as
  induction as with
  | nil => intro bs; left; rfl
  | cons a as ih =>
    intro bs
    cases bs with
    | nil => right; rfl
    | cons b bs =>
      rcases Nat.lt_trichotomy a.toNat b.toNat with h | h | h
      · left; exact charListLe_cons.mpr (Or.inl h)
      · rcases ih bs with hr | hr
        · left; exact charListLe_cons.mpr (Or.inr ⟨h, hr⟩)
        · right; exact charListLe_cons.mpr (Or.inr ⟨h.symm, hr⟩)
      · right; exact charListLe_cons.mpr (Or.inl h)

theorem charListLe_trans : ∀ as bs cs : List Char,
    charListLe as bs = true → charListLe bs cs = true → charListLe as cs = true := by
  intro as
  induction as with
  | nil => intro bs cs _ _; rfl
  | cons a as ih =>
    intro bs cs h1 h2
    cases bs with
    | nil => simp [charListLe] at h1
    | cons b bs =>
      cases cs with
      | nil => simp [charListLe] at h2
      | cons c cs =>
        rcases charListLe_cons.mp h1 with hab | ⟨hab, h1'⟩ <;>
          rcases charListLe_cons.mp h2 with hbc | ⟨hbc, h2'⟩
        · exact charListLe_cons.mpr (Or.inl (by omega))
        · exact charListLe_cons.mpr (Or.inl (by omega))
        · exact charListLe_cons.mpr (Or.inl (by omega))
        · exact charListLe_cons.mpr (Or.inr ⟨by omega, ih bs cs h1' h2'⟩)

theorem charListLe_antisymm : ∀ as bs : List Char,
    charListLe as bs = true → charListLe bs as = true → as = bs := by
  intro as
  induction as with
  | nil =>
    intro bs _ h2
    cases bs with
    | nil => rfl
    | cons b bs => simp [charListLe] at h2
  | cons a as ih =>
    intro bs h1 h2
    cases bs with
    | nil => simp [charListLe] at h1
    | cons b bs =>
      rcases charListLe_cons.mp h1 with hab | ⟨hab, h1'⟩ <;>
        rcases charListLe_cons.mp h2 with hba | ⟨hba, h2'⟩
      · omega
      · omega
      · omega
      · rw [charToNat_inj hab, ih bs h1' h2']

instance : IsTotal String strLeP :=
  ⟨fun a b => charListLe_total a.data b.data⟩

instance : IsTrans String strLeP :=
  ⟨fun a b c => charListLe_trans a.data b.data c.data⟩

instance : IsAntisymm String strLeP :=
  ⟨fun a b h1 h2 => String.ext (charListLe_antisymm a.data b.data h1 h2)⟩

theorem sortStrings_perm (l : List String) : (sortStrings l).Perm l :=
  List.perm_insertionSort strLeP l

theorem sortStrings_sorted (l : List String) : List.Sorted strLeP (sortStrings l) :=
  List.sorted_insertionSort strLeP l

theorem sortStrings_eq_of_perm {l l' : List String} (h : l.Perm l') :
    sortStrings l = sortStrings l' :=
  List.eq_of_perm_of_sorted ((sortStrings_perm l).trans (h.trans (sortStrings_perm l').symm))
    (sortStrings_sorted l) (sortStrings_sorted l')

theorem sortStrings_of_sorted {l : List String} (h : List.Sorted strLeP l) :
    sortStrings l = l :=
  List.eq_of_perm_of_sorted (sortStrings_perm l) (sortStrings_sorted l) h

theorem sortStrings_pair {p1 p2 : String} (h : strLe p1 p2 = true) :
    sortStrings [p1, p2] = [p1, p2] := by
  apply sortStrings_of_sorted
  simp [List.Sorted, strLeP, h]


/-! ## String plumbing: appends, separators, digit rendering -/

theorem data_append (a b : String) : (a ++ b).data = a.data ++ b.data :=
  String.data_append a b

/-- Right cancellation of string append (used for suffixed keys). -/
theorem string_append_right_cancel {a b s : String} (h : a ++ s = b ++ s) : a = b := by
  apply String.ext
  have hd : a.data ++ s.data = b.data ++ s.data := by
    rw [← data_append, ← data_append, h]
  have hlen : a.data.length = b.data.length := by
    have := congrArg List.length hd
    rw [List.length_append, List.length_append] at this
    omega
  exact (List.append_inj hd hlen).1

/-- Splitting a list at a separator character that occurs in neither of
the outer parts is unambiguous. -/
theorem append_sep_inj {c : Char} :
    ∀ (a1 : List Char) {b1 a2 b2 : List Char}, c ∉ a1 → c ∉ a2 →
      a1 ++ c :: b1 = a2 ++ c :: b2 → a1 = a2 ∧ b1 = b2 := by
  intro a1
  induction a1 with
  | nil =>
    intro b1 a2 b2 _ h2 heq
    cases a2 with
    | nil => simpa using heq
    | cons x a2 =>
      simp only [List.nil_append, List.cons_append, List.cons.injEq] at heq
      exact absurd (heq.1 ▸ List.mem_cons_self x a2) h2
  | cons x a1 ih =>
    intro b1 a2 b2 h1 h2 heq
    cases a2 with
    | nil =>
      simp only [List.cons_append, List.nil_append, List.cons.injEq] at heq
      exact absurd (heq.1 ▸ List.mem_cons_self x a1) h1
    | cons y a2 =>
      simp only [List.cons_append, List.cons.injEq] at heq
      have hx : c ∉ a1 := fun hm => h1 (List.mem_cons_of_mem x hm)
      have hy : c ∉ a2 := fun hm => h2 (List.mem_cons_of_mem y hm)
      rcases ih hx hy heq.2 with ⟨ha, hb⟩
      exact ⟨by rw [heq.1, ha], hb⟩

/-- A word flanked by a separator on each side, the word and the trailing
part free of the separator, determines the leading part. -/
theorem sep_word_sep_inj {c : Char} {s m1 m2 r1 r2 : List Char}
    (hs : c ∉ s) (hm1 : c ∉ m1) (hm2 : c ∉ m2)
    (h : r1 ++ c :: (m1 ++ c :: s) = r2 ++ c :: (m2 ++ c :: s)) : r1 = r2 := by
  have hr := congrArg List.reverse h
  simp only [List.reverse_append, List.reverse_cons, List.append_assoc,
    List.singleton_append] at hr
  have hs' : c ∉ s.reverse := fun hm => hs (List.mem_reverse.mp hm)
  have hm1' : c ∉ m1.reverse := fun hm => hm1 (List.mem_reverse.mp hm)
  have hm2' : c ∉ m2.reverse := fun hm => hm2 (List.mem_reverse.mp hm)
  have step1 := (append_sep_inj _ hs' hs' hr).2
  have step2 := (append_sep_inj _ hm1' hm2' step1).2
  have := congrArg List.reverse step2
  simpa using this

theorem digitChar_isDigit {n : Nat} (h : n < 10) : (Nat.digitChar n).isDigit = true := by
  interval_cases n <;> decide

theorem toDigitsCore_digits :
    ∀ (f n : Nat) (ds : List Char), (∀ c ∈ ds, c.isDigit = true) →
      ∀ c ∈ Nat.toDigitsCore 10 f n ds, c.isDigit = true := by
  intro f
  induction f with
  | zero =>
    intro n ds hds c hc
    exact hds c hc
  | succ f ih =>
    intro n ds hds c hc
    simp only [Nat.toDigitsCore] at hc
    have hdig : ∀ x ∈ Nat.digitChar (n % 10) :: ds, x.isDigit = true := by
      intro x hx
      rcases List.mem_cons.mp hx with hx | hx
      · rw [hx]; exact digitChar_isDigit (Nat.mod_lt n (by omega))
      · exact hds x hx
    by_cases hz : n / 10 = 0
    · rw [if_pos hz] at hc
      exact hdig c hc
    · rw [if_neg hz] at hc
      exact ih (n / 10) _ hdig c hc

theorem repr_digits (n : Nat) : ∀ c ∈ (Nat.repr n).data, c.isDigit = true := by
  intro c hc
  have hrepr : (Nat.repr n).data = Nat.toDigitsCore 10 (n + 1) n [] := rfl
  rw [hrepr] at hc
  exact toDigitsCore_digits (n + 1) n [] (by simp) c hc

theorem pyFormat04_chars (v : Int) :
    ∀ c ∈ (pyFormat04 v).data, c = '-' ∨ c.isDigit = true := by
  intro c hc
  have habs : (toString v.natAbs).data = (Nat.repr v.natAbs).data := rfl
  unfold pyFormat04 padZeros at hc
  split at hc <;> simp only [data_append] at hc
  · rcases List.mem_append.mp hc with hc | hc
    · left
      simpa using hc
    · rcases List.mem_append.mp hc with hc | hc
      · right
        have := List.eq_of_mem_replicate (by simpa using hc)
        rw [this]; decide
      · right
        rw [habs] at hc
        exact repr_digits _ c hc
  · rcases List.mem_append.mp hc with hc | hc
    · right
      have := List.eq_of_mem_replicate (by simpa using hc)
      rw [this]; decide
    · right
      rw [habs] at hc
      exact repr_digits _ c hc

/-- No underscore occurs in the `<OW>x<OH>` middle of an output name. -/
theorem middle_no_underscore (w h : Int) :
    '_' ∉ (pyFormat04 w ++ "x" ++ pyFormat04 h).data := by
  intro hm
  simp only [data_append] at hm
  rcases List.mem_append.mp hm with hm | hm
  · rcases List.mem_append.mp hm with hm | hm
    · rcases pyFormat04_chars w _ hm with hx | hx
      · exact absurd hx (by decide)
      · exact absurd hx (by decide)
    · simp at hm
  · rcases pyFormat04_chars h _ hm with hx | hx
    · exact absurd hx (by decide)
    · exact absurd hx (by decide)

/-- The character-list shape of an output file name. -/
theorem outName_data (b : String) (w hh : Int) :
    (outName b w hh).data =
      b.data ++ '_' :: ((pyFormat04 w ++ "x" ++ pyFormat04 hh).data ++ '_' :: "sdxl.npz".data) := by
  have lit1 : "_".data = ['_'] := rfl
  have lit2 : "_sdxl.npz".data = '_' :: "sdxl.npz".data := rfl
  simp only [outName, data_append, List.append_assoc, lit1, lit2, List.singleton_append,
    List.cons_append, List.nil_append]

/-- Distinct base identifiers always yield distinct output file names:
reading an output name from the right, `sdxl.npz` and the underscore-free
`<OW>x<OH>` middle sit between two underscores, so the base is whatever
precedes them. -/
theorem outName_inj {b1 b2 : String} {w1 h1 w2 h2 : Int}
    (hne : b1 ≠ b2) : outName b1 w1 h1 ≠ outName b2 w2 h2 := by
  intro h
  apply hne
  apply String.ext
  have hd := congrArg String.data h
  rw [outName_data, outName_data] at hd
  exact sep_word_sep_inj (by decide) (middle_no_underscore w1 h1) (middle_no_underscore w2 h2) hd

/-! ## The merger: characterizing `convert_group` -/

theorem contribOn_cons (c : Container) (sfx kb : String) (rest : List String) :
    contribOn c sfx (kb :: rest) =
      (if hasKeyC c kb then [(kb ++ sfx, getC c kb)] else []) ++ contribOn c sfx rest := by
  unfold contribOn
  rw [List.filter_cons]
  cases hasKeyC c kb <;> simp

theorem key_not_mem_of_any_false {m : List (String × NDArray)} {k : String}
    (h : m.any (fun p => p.1 == k) = false) : k ∉ keysOf m := by
  intro hk
  rcases List.mem_map.mp hk with ⟨p, hp, hpk⟩
  have := List.any_eq_false.mp h p hp
  exact this (by simpa using hpk)

theorem any_key_false_of_not_mem {m : List (String × NDArray)} {k : String}
    (h : k ∉ keysOf m) : m.any (fun p => p.1 == k) = false := by
  apply List.any_eq_false.mpr
  intro p hp hc
  exact h (List.mem_map.mpr ⟨p, hp, by simpa using hc⟩)

theorem mergedInsert_ok_eq {base : String} {c : Container} {sfx : String} :
    ∀ (bases : List String) (merged m : List (String × NDArray)),
      mergedInsert base c sfx bases merged = .ok m →
      m = merged ++ contribOn c sfx bases := by
  intro bases
  induction bases with
  | nil =>
    intro merged m h
    simp only [mergedInsert, Except.ok.injEq] at h
    simp [contribOn, ← h]
  | cons kb rest ih =>
    intro merged m h
    simp only [mergedInsert] at h
    rw [contribOn_cons]
    cases hk : hasKeyC c kb with
    | false =>
      simp only [hk, Bool.false_eq_true, if_false] at h ⊢
      simpa using ih merged m h
    | true =>
      simp only [hk, if_true] at h ⊢
      cases hdup : merged.any (fun p => p.1 == kb ++ sfx) with
      | true => simp [hdup] at h
      | false =>
        simp only [hdup, Bool.false_eq_true, if_false] at h
        have := ih _ m h
        rw [this]
        simp

theorem mergedInsert_ok_nodup {base : String} {c : Container} {sfx : String} :
    ∀ (bases : List String) (merged m : List (String × NDArray)),
      mergedInsert base c sfx bases merged = .ok m →
      (keysOf merged).Nodup → (keysOf m).Nodup := by
  intro bases
  induction bases with
  | nil =>
    intro merged m h hnd
    simp only [mergedInsert, Except.ok.injEq] at h
    rwa [← h]
  | cons kb rest ih =>
    intro merged m h hnd
    simp only [mergedInsert] at h
    cases hk : hasKeyC c kb with
    | false =>
      simp only [hk, Bool.false_eq_true, if_false] at h
      exact ih merged m h hnd
    | true =>
      simp only [hk, if_true] at h
      cases hdup : merged.any (fun p => p.1 == kb ++ sfx) with
      | true => simp [hdup] at h
      | false =>
        simp only [hdup, Bool.false_eq_true, if_false] at h
        apply ih _ m h
        have hnotin := key_not_mem_of_any_false hdup
        simp only [keysOf, List.map_append, List.map_cons, List.map_nil] at hnd ⊢
        simp only [List.nodup_append, hnd, true_and]
        refine ⟨by simp, ?_⟩
        intro a ha hb
        simp only [List.mem_singleton] at hb
        apply hnotin
        simp only [keysOf]
        rw [← hb]
        exact ha

theorem mergedInsert_ok_of {base : String} {c : Container} {sfx : String} :
    ∀ (bases : List String) (merged : List (String × NDArray)),
      bases.Nodup →
      (∀ kb ∈ bases, hasKeyC c kb = true → ∀ q ∈ merged, q.1 ≠ kb ++ sfx) →
      mergedInsert base c sfx bases merged = .ok (merged ++ contribOn c sfx bases) := by
  intro bases
  induction bases with
  | nil =>
    intro merged _ _
    simp [mergedInsert, contribOn]
  | cons kb rest ih =>
    intro merged hnd hfresh
    simp only [mergedInsert]
    rw [contribOn_cons]
    cases hk : hasKeyC c kb with
    | false =>
      simp only [Bool.false_eq_true, if_false, List.nil_append]
      exact ih merged (List.Nodup.of_cons hnd)
        (fun kb' hkb' hk' q hq => hfresh kb' (List.mem_cons_of_mem kb hkb') hk' q hq)
    | true =>
      simp only [if_true]
      have hany : merged.any (fun p => p.1 == kb ++ sfx) = false := by
        apply List.any_eq_false.mpr
        intro q hq hc
        exact hfresh kb (List.mem_cons_self kb rest) hk q hq (by simpa using hc)
      simp only [hany, Bool.false_eq_true, if_false]
      have hkb_rest : kb ∉ rest := by
        have := List.nodup_cons.mp hnd
        exact this.1
      have step := ih (merged ++ [(kb ++ sfx, getC c kb)]) (List.Nodup.of_cons hnd)
        (by
          intro kb' hkb' hk' q hq
          rcases List.mem_append.mp hq with hq | hq
          · exact hfresh kb' (List.mem_cons_of_mem kb hkb') hk' q hq
          · have hq1 : q = (kb ++ sfx, getC c kb) := by simpa using hq
            rw [hq1]
            intro hcc
            exact hkb_rest (string_append_right_cancel hcc ▸ hkb'))
      rw [step]
      simp

theorem latDims_some {c : Container} {hh ww : Nat} (h : latDims c = some (hh, ww)) :
    ∃ t, (getC c "latents").shape.reverse = ww :: hh :: t := by
  unfold latDims at h
  rcases hr : (getC c "latents").shape.reverse with _ | ⟨w', t'⟩
  · rw [hr] at h; cases h
  · rcases t' with _ | ⟨h', t''⟩
    · rw [hr] at h; cases h
    · rw [hr] at h
      simp only [Option.some.injEq, Prod.mk.injEq] at h
      obtain ⟨h1, h2⟩ := h
      subst h1
      subst h2
      exact ⟨t'', rfl⟩

theorem suffixOf_eq {c : Container} {hh ww : Nat} (h : latDims c = some (hh, ww)) :
    suffixOf c = "_" ++ toString hh ++ "x" ++ toString ww := by
  unfold suffixOf
  rw [h]

theorem processShape_eq {base path : String} {c : Container}
    {merged : List (String × NDArray)} {adopted : List Int} {hh ww : Nat}
    (h : latDims c = some (hh, ww)) :
    processShape base path c merged adopted =
      match mergedInsert base c (suffixOf c) MERGED_KEY_BASES merged with
      | .ok m => .ok (m, adopted)
      | .error e => .error e := by
  rcases latDims_some h with ⟨t, ht⟩
  unfold processShape
  rw [ht, suffixOf_eq h]

theorem processShape_err {base path : String} {c : Container}
    {merged : List (String × NDArray)} {adopted : List Int}
    (h : latDims c = none) :
    processShape base path c merged adopted =
      .error ("Invalid latents shape in " ++ path ++ ": " ++ pyTupleNat (getC c "latents").shape) := by
  unfold latDims at h
  unfold processShape
  rcases hr : (getC c "latents").shape.reverse with _ | ⟨w', t'⟩
  · rfl
  · rcases t' with _ | ⟨h', t''⟩
    · rfl
    · rw [hr] at h; cases h

theorem wfC_parts {c : Container} (h : wfC c = true) :
    hasKeyC c "latents" = true ∧ hasKeyC c "original_size" = true ∧
      hasKeyC c "crop_ltrb" = true ∧ (latDims c).isSome = true := by
  unfold wfC at h
  simp only [Bool.and_eq_true] at h
  exact ⟨h.1.1.1, h.1.1.2, h.1.2, h.2⟩

theorem processFile_none_unfold (base path : String) (c : Container)
    (merged : List (String × NDArray)) :
    processFile base path c merged none =
      if !hasKeyC c "latents" || !hasKeyC c "original_size" || !hasKeyC c "crop_ltrb" then
        .error ("Missing required keys in " ++ path ++ "; required: latents, original_size, crop_ltrb")
      else processShape base path c merged (getC c "original_size").data := rfl

theorem processFile_some_unfold (base path : String) (c : Container)
    (merged : List (String × NDArray)) (o : List Int) :
    processFile base path c merged (some o) =
      if !hasKeyC c "latents" || !hasKeyC c "original_size" || !hasKeyC c "crop_ltrb" then
        .error ("Missing required keys in " ++ path ++ "; required: latents, original_size, crop_ltrb")
      else if o = (getC c "original_size").data then processShape base path c merged o
      else .error ("Inconsistent original_size for '" ++ base ++ "': " ++ pyTupleInt o ++
        " vs " ++ pyTupleInt (getC c "original_size").data ++ " (" ++ path ++ ")") := rfl

theorem processFile_ok_elim {base path : String} {c : Container}
    {merged : List (String × NDArray)} {osz : Option (List Int)}
    {m1 : List (String × NDArray)} {o1 : List Int}
    (h : processFile base path c merged osz = .ok (m1, o1)) :
    wfC c = true ∧ o1 = osizeOf c ∧ (∀ S, osz = some S → S = osizeOf c) ∧
      mergedInsert base c (suffixOf c) MERGED_KEY_BASES merged = .ok m1 := by
  have hkeys : (!hasKeyC c "latents" || !hasKeyC c "original_size" || !hasKeyC c "crop_ltrb") = false := by
    cases hc : (!hasKeyC c "latents" || !hasKeyC c "original_size" || !hasKeyC c "crop_ltrb") with
    | false => rfl
    | true =>
      exfalso
      rcases osz with _ | o
      · rw [processFile_none_unfold, if_pos hc] at h
        exact absurd h (by simp)
      · rw [processFile_some_unfold, if_pos hc] at h
        exact absurd h (by simp)
  have hkeys' : ¬((!hasKeyC c "latents" || !hasKeyC c "original_size" || !hasKeyC c "crop_ltrb") = true) := by
    rw [hkeys]
    simp
  have hk1 : hasKeyC c "latents" = true := by
    cases hx : hasKeyC c "latents"
    · rw [hx] at hkeys; simp at hkeys
    · rfl
  have hk2 : hasKeyC c "original_size" = true := by
    cases hx : hasKeyC c "original_size"
    · rw [hx] at hkeys; simp at hkeys
    · rfl
  have hk3 : hasKeyC c "crop_ltrb" = true := by
    cases hx : hasKeyC c "crop_ltrb"
    · rw [hx] at hkeys; simp at hkeys
    · rfl
  have hshape : ∀ adopted, processShape base path c merged adopted = .ok (m1, o1) →
      latDims c = some (latDims c).iget ∧
        mergedInsert base c (suffixOf c) MERGED_KEY_BASES merged = .ok m1 ∧ o1 = adopted := by
    intro adopted hps
    rcases hld : latDims c with _ | ⟨hh, ww⟩
    · rw [processShape_err hld] at hps
      exact absurd hps (by simp)
    · rw [processShape_eq hld] at hps
      rcases hmi : mergedInsert base c (suffixOf c) MERGED_KEY_BASES merged with e | mm
      · rw [hmi] at hps
        exact absurd hps (by simp)
      · rw [hmi] at hps
        simp only [Except.ok.injEq, Prod.mk.injEq] at hps
        refine ⟨by simp, ?_, hps.2.symm⟩
        rw [hps.1]
  rcases osz with _ | o
  · rw [processFile_none_unfold, if_neg hkeys'] at h
    rcases hshape _ h with ⟨hld, hins, ho1⟩
    have hwf : wfC c = true := by
      unfold wfC
      rw [hk1, hk2, hk3, hld]
      simp
    exact ⟨hwf, ho1, by simp, hins⟩
  · rw [processFile_some_unfold, if_neg hkeys'] at h
    by_cases ho : o = (getC c "original_size").data
    · rw [if_pos ho] at h
      rcases hshape _ h with ⟨hld, hins, ho1⟩
      have hwf : wfC c = true := by
        unfold wfC
        rw [hk1, hk2, hk3, hld]
        simp
      refine ⟨hwf, by rw [ho1, ho]; rfl, ?_, hins⟩
      intro S hS
      simp only [Option.some.injEq] at hS
      rw [← hS, ho]
      rfl
    · rw [if_neg ho] at h
      exact absurd h (by simp)

theorem processFile_ok_of {base path : String} {c : Container}
    {merged m1 : List (String × NDArray)} {osz : Option (List Int)}
    (hwf : wfC c = true) (hosz : osz = none ∨ osz = some (osizeOf c))
    (hins : mergedInsert base c (suffixOf c) MERGED_KEY_BASES merged = .ok m1) :
    processFile base path c merged osz = .ok (m1, osizeOf c) := by
  rcases wfC_parts hwf with ⟨hk1, hk2, hk3, hld⟩
  rcases hld' : latDims c with _ | ⟨hh, ww⟩
  · rw [hld'] at hld
    cases hld
  have hkeys' : ¬((!hasKeyC c "latents" || !hasKeyC c "original_size" || !hasKeyC c "crop_ltrb") = true) := by
    rw [hk1, hk2, hk3]
    simp
  rcases hosz with ho | ho
  · subst ho
    rw [processFile_none_unfold, if_neg hkeys', processShape_eq hld', hins]
    rfl
  · subst ho
    rw [processFile_some_unfold, if_neg hkeys']
    split
    · rw [processShape_eq hld', hins]
    · next hne => exact absurd rfl hne

theorem convertLoop_cons_none {fs : List (String × Container)} {base p : String}
    {rest : List String} {merged : List (String × NDArray)} {osz : Option (List Int)}
    (hl : lookupFS fs p = none) :
    convertLoop fs base (p :: rest) merged osz = .error ("FileNotFoundError: " ++ p) := by
  conv_lhs => unfold convertLoop
  rw [hl]

theorem convertLoop_cons_some {fs : List (String × Container)} {base p : String}
    {c : Container} {rest : List String} {merged : List (String × NDArray)}
    {osz : Option (List Int)} (hl : lookupFS fs p = some c) :
    convertLoop fs base (p :: rest) merged osz =
      match processFile base p c merged osz with
      | .error e => .error e
      | .ok (m, o) => convertLoop fs base rest m (some o) := by
  conv_lhs => unfold convertLoop
  rw [hl]

theorem convertLoop_ok_elim {fs : List (String × Container)} {base : String} :
    ∀ (l : List String) (merged : List (String × NDArray)) (osz : Option (List Int))
      (m : List (String × NDArray)) (o : Option (List Int)),
      convertLoop fs base l merged osz = .ok (m, o) →
      (m = merged ++ (l.map (contribAt fs)).flatten) ∧
      (∀ p ∈ l, ∃ c, lookupFS fs p = some c ∧ wfC c = true ∧ o = some (osizeOf c)) ∧
      (l = [] → (m = merged ∧ o = osz)) ∧
      (∀ S, osz = some S → o = some S) := by
  intro l
  induction l with
  | nil =>
    intro merged osz m o h
    simp only [convertLoop, Except.ok.injEq, Prod.mk.injEq] at h
    refine ⟨by simp [h.1.symm], by simp, fun _ => ⟨h.1.symm, h.2.symm⟩, fun S hS => h.2 ▸ hS⟩
  | cons p rest ih =>
    intro merged osz m o h
    rcases hl : lookupFS fs p with _ | c
    · rw [convertLoop_cons_none hl] at h
      exact absurd h (by simp)
    · rw [convertLoop_cons_some hl] at h
      rcases hpf : processFile base p c merged osz with e | ⟨m1, o1⟩
      · rw [hpf] at h
        exact absurd h (by simp)
      · rw [hpf] at h
        have h' : convertLoop fs base rest m1 (some o1) = .ok (m, o) := h
        rcases processFile_ok_elim hpf with ⟨hwf, ho1, hprev, hins⟩
        rcases ih _ _ _ _ h' with ⟨hm, hall, _, hlast⟩
        have hoc : o = some (osizeOf c) := by
          rw [← ho1]
          exact hlast o1 rfl
        refine ⟨?_, ?_, by simp, ?_⟩
        · rw [hm, mergedInsert_ok_eq _ _ _ hins]
          simp only [List.map_cons, List.flatten_cons, List.append_assoc]
          have hca : contribAt fs p = contribOn c (suffixOf c) MERGED_KEY_BASES := by
            unfold contribAt contrib
            rw [hl]
            rfl
          rw [hca]
        · intro q hq
          rcases List.mem_cons.mp hq with hq | hq
          · subst hq
            exact ⟨c, hl, hwf, hoc⟩
          · exact hall q hq
        · intro S hS
          rw [hoc, Option.some.injEq]
          exact (hprev S hS).symm

theorem convertLoop_ok_nodup {fs : List (String × Container)} {base : String} :
    ∀ (l : List String) (merged : List (String × NDArray)) (osz : Option (List Int))
      (m : List (String × NDArray)) (o : Option (List Int)),
      convertLoop fs base l merged osz = .ok (m, o) →
      (keysOf merged).Nodup → (keysOf m).Nodup := by
  intro l
  induction l with
  | nil =>
    intro merged osz m o h hnd
    simp only [convertLoop, Except.ok.injEq, Prod.mk.injEq] at h
    rwa [← h.1]
  | cons p rest ih =>
    intro merged osz m o h hnd
    rcases hl : lookupFS fs p with _ | c
    · rw [convertLoop_cons_none hl] at h
      exact absurd h (by simp)
    · rw [convertLoop_cons_some hl] at h
      rcases hpf : processFile base p c merged osz with e | ⟨m1, o1⟩
      · rw [hpf] at h
        exact absurd h (by simp)
      · rw [hpf] at h
        have h' : convertLoop fs base rest m1 (some o1) = .ok (m, o) := h
        rcases processFile_ok_elim hpf with ⟨_, _, _, hins⟩
        exact ih _ _ _ _ h' (mergedInsert_ok_nodup _ _ _ hins hnd)

theorem contribAt_eq {fs : List (String × Container)} {p : String} {c : Container}
    (hl : lookupFS fs p = some c) :
    contribAt fs p = contribOn c (suffixOf c) MERGED_KEY_BASES := by
  unfold contribAt contrib
  rw [hl]
  rfl

theorem MERGED_KEY_BASES_nodup : MERGED_KEY_BASES.Nodup := by decide

theorem keysOf_append (A B : List (String × NDArray)) :
    keysOf (A ++ B) = keysOf A ++ keysOf B := by
  simp [keysOf]

theorem convertLoop_ok_of {fs : List (String × Container)} {base : String} {T : List Int} :
    ∀ (l : List String) (merged : List (String × NDArray)) (osz : Option (List Int)),
      (osz = none ∨ osz = some T) →
      (∀ p ∈ l, ∃ c, lookupFS fs p = some c ∧ wfC c = true ∧ osizeOf c = T) →
      (keysOf (merged ++ (l.map (contribAt fs)).flatten)).Nodup →
      convertLoop fs base l merged osz =
        .ok (merged ++ (l.map (contribAt fs)).flatten, if l.isEmpty then osz else some T) := by
  intro l
  induction l with
  | nil =>
    intro merged osz _ _ _
    simp [convertLoop]
  | cons p rest ih =>
    intro merged osz hosz h1 hnd
    rcases h1 p (List.mem_cons_self p rest) with ⟨c, hl, hwf, hT⟩
    have hca := contribAt_eq hl
    have hnd' : (keysOf ((merged ++ contribOn c (suffixOf c) MERGED_KEY_BASES) ++
        (rest.map (contribAt fs)).flatten)).Nodup := by
      rw [List.append_assoc]
      simpa only [List.map_cons, List.flatten_cons, hca, List.append_assoc] using hnd
    have hfresh : ∀ kb ∈ MERGED_KEY_BASES, hasKeyC c kb = true →
        ∀ q ∈ merged, q.1 ≠ kb ++ suffixOf c := by
      intro kb hkb hkc q hq hqe
      have hmem1 : q.1 ∈ keysOf merged := List.mem_map_of_mem Prod.fst hq
      have hmem2 : q.1 ∈ keysOf (contribOn c (suffixOf c) MERGED_KEY_BASES) := by
        simp only [keysOf, contribOn, List.map_map]
        refine List.mem_map.mpr ⟨kb, List.mem_filter.mpr ⟨hkb, hkc⟩, ?_⟩
        simp [hqe]
      have hleft : (keysOf (merged ++ contribOn c (suffixOf c) MERGED_KEY_BASES)).Nodup :=
        List.Nodup.of_append_left (by rwa [keysOf_append] at hnd')
      have hdisj := List.disjoint_of_nodup_append (by rwa [keysOf_append] at hleft)
      exact hdisj hmem1 hmem2
    have hins := @mergedInsert_ok_of base c (suffixOf c) MERGED_KEY_BASES merged MERGED_KEY_BASES_nodup hfresh
    have hosz' : osz = none ∨ osz = some (osizeOf c) := by
      rcases hosz with h | h
      · exact Or.inl h
      · right
        rw [h, hT]
    have hpf := @processFile_ok_of base p c merged _ osz hwf hosz' hins
    rw [convertLoop_cons_some hl, hpf]
    have hstep := ih (merged ++ contribOn c (suffixOf c) MERGED_KEY_BASES) (some (osizeOf c))
      (Or.inr (by rw [hT])) (fun q hq => h1 q (List.mem_cons_of_mem p hq)) hnd'
    show convertLoop fs base rest (merged ++ contribOn c (suffixOf c) MERGED_KEY_BASES)
        (some (osizeOf c)) = _
    rw [hstep]
    simp only [List.map_cons, List.flatten_cons, hca, List.isEmpty_cons, Bool.false_eq_true,
      if_false, List.append_assoc, hT, ite_self]

theorem convert_group_ok_elim {fs : List (String × Container)} {base : String}
    {paths : List String} {m : List (String × NDArray)} {S : List Int}
    (h : convert_group fs base paths = .ok (m, S)) :
    paths ≠ [] ∧
    m = ((sortStrings paths).map (contribAt fs)).flatten ∧
    (keysOf m).Nodup ∧
    (∀ p ∈ paths, ∃ c, lookupFS fs p = some c ∧ wfC c = true ∧ osizeOf c = S) := by
  unfold convert_group at h
  rcases hcl : convertLoop fs base (sortStrings paths) [] none with e | ⟨m', o⟩
  · rw [hcl] at h
    exact absurd h (by simp)
  · rw [hcl] at h
    rcases o with _ | S'
    · exact absurd h (by simp)
    · have h' : @Except.ok String _ (m', S') = Except.ok (m, S) := h
      simp only [Except.ok.injEq, Prod.mk.injEq] at h'
      obtain ⟨hm, hS⟩ := h'
      rcases convertLoop_ok_elim _ _ _ _ _ hcl with ⟨hm', hall, hemp, _⟩
      have hnd := convertLoop_ok_nodup _ _ _ _ _ hcl (by simp [keysOf])
      have hpne : paths ≠ [] := by
        intro hp
        subst hp
        rcases hemp rfl with ⟨_, ho⟩
        cases ho
      refine ⟨hpne, ?_, ?_, ?_⟩
      · rw [← hm, hm']
        simp
      · rwa [← hm]
      · intro p hp
        rcases hall p ((sortStrings_perm paths).mem_iff.mpr hp) with ⟨c, hlc, hwfc, hoc⟩
        refine ⟨c, hlc, hwfc, ?_⟩
        rw [← hS]
        simp only [Option.some.injEq] at hoc
        exact hoc.symm

theorem convert_group_ok_of {fs : List (String × Container)} {base : String}
    {paths : List String} {T : List Int}
    (hne : paths ≠ [])
    (h1 : ∀ p ∈ paths, ∃ c, lookupFS fs p = some c ∧ wfC c = true ∧ osizeOf c = T)
    (hnd : (keysOf (((sortStrings paths).map (contribAt fs)).flatten)).Nodup) :
    convert_group fs base paths = .ok (((sortStrings paths).map (contribAt fs)).flatten, T) := by
  have hsne : (sortStrings paths).isEmpty = false := by
    cases hp : sortStrings paths with
    | nil =>
      exfalso
      apply hne
      have hperm := sortStrings_perm paths
      rw [hp] at hperm
      exact hperm.symm.eq_nil
    | cons a l => rfl
  have step := @convertLoop_ok_of fs base T (sortStrings paths) [] none (Or.inl rfl)
    (fun p hp => h1 p ((sortStrings_perm paths).mem_iff.mp hp))
    (by simpa [keysOf] using hnd)
  unfold convert_group
  rw [step]
  simp only [hsne, Bool.false_eq_true, if_false, List.nil_append]

/-! ## The writer loop of `main` -/

theorem mainLoop_nil {fs : List (String × Container)} {ow dry : Bool} {pre : List String}
    {evs : List Event} {w s : Nat} {files : List (String × List (String × NDArray))} :
    mainLoop fs ow dry pre [] evs w s files = ⟨evs, w, s, files, none⟩ := rfl

theorem mainLoop_cons_err {fs : List (String × Container)} {ow dry : Bool} {pre : List String}
    {base : String} {paths : List String} {rest : List (String × List String)}
    {evs : List Event} {w s : Nat} {files : List (String × List (String × NDArray))}
    {e : String} (h : convert_group fs base paths = .error e) :
    mainLoop fs ow dry pre ((base, paths) :: rest) evs w s files = ⟨evs, w, s, files, some e⟩ := by
  conv_lhs => unfold mainLoop
  rw [h]

theorem mainLoop_cons_ok {fs : List (String × Container)} {ow dry : Bool} {pre : List String}
    {base : String} {paths : List String} {rest : List (String × List String)}
    {evs : List Event} {w s : Nat} {files : List (String × List (String × NDArray))}
    {merged : List (String × NDArray)} {w0 h0 : Int} {t : List Int}
    (h : convert_group fs base paths = .ok (merged, w0 :: h0 :: t)) :
    mainLoop fs ow dry pre ((base, paths) :: rest) evs w s files =
      if (pre.contains (outName base w0 h0) ||
            files.any (fun f => f.1 == outName base w0 h0)) && !ow then
        mainLoop fs ow dry pre rest (evs ++ [Event.skip (outName base w0 h0)]) w (s + 1) files
      else if dry then
        mainLoop fs ow dry pre rest (evs ++ [Event.plan (outName base w0 h0)]) (w + 1) s files
      else
        mainLoop fs ow dry pre rest (evs ++ [Event.ok (outName base w0 h0)]) (w + 1) s
          (files ++ [(outName base w0 h0, merged)]) := by
  conv_lhs => unfold mainLoop
  rw [h]

theorem mainLoop_cons_short {fs : List (String × Container)} {ow dry : Bool} {pre : List String}
    {base : String} {paths : List String} {rest : List (String × List String)}
    {evs : List Event} {w s : Nat} {files : List (String × List (String × NDArray))}
    {merged : List (String × NDArray)} {osz : List Int}
    (h : convert_group fs base paths = .ok (merged, osz))
    (hshort : osz.length < 2) :
    mainLoop fs ow dry pre ((base, paths) :: rest) evs w s files =
      ⟨evs, w, s, files, some "IndexError: tuple index out of range"⟩ := by
  conv_lhs => unfold mainLoop
  rw [h]
  rcases osz with _ | ⟨x, _ | ⟨y, t⟩⟩
  · rfl
  · rfl
  · exfalso
    simp only [List.length_cons] at hshort
    omega

theorem mainLoop_append {fs : List (String × Container)} {ow dry : Bool} {pre : List String} :
    ∀ (gs1 gs2 : List (String × List String)) (evs : List Event) (w s : Nat)
      (files : List (String × List (String × NDArray))),
      (mainLoop fs ow dry pre gs1 evs w s files).errorMsg = none →
      mainLoop fs ow dry pre (gs1 ++ gs2) evs w s files =
        mainLoop fs ow dry pre gs2
          (mainLoop fs ow dry pre gs1 evs w s files).events
          (mainLoop fs ow dry pre gs1 evs w s files).written
          (mainLoop fs ow dry pre gs1 evs w s files).skipped
          (mainLoop fs ow dry pre gs1 evs w s files).files := by
  intro gs1
  induction gs1 with
  | nil =>
    intro gs2 evs w s files _
    simp [mainLoop_nil]
  | cons g rest ih =>
    intro gs2 evs w s files hna
    obtain ⟨base, paths⟩ := g
    rcases hcg : convert_group fs base paths with e | ⟨merged, osz⟩
    · rw [mainLoop_cons_err hcg] at hna
      cases hna
    · rcases osz with _ | ⟨w0, _ | ⟨h0, t⟩⟩
      · rw [mainLoop_cons_short hcg (by simp)] at hna
        cases hna
      · rw [mainLoop_cons_short hcg (by simp)] at hna
        cases hna
      · rw [mainLoop_cons_ok hcg] at hna ⊢
        rw [show ((base, paths) :: rest) ++ gs2 = (base, paths) :: (rest ++ gs2) from rfl,
          mainLoop_cons_ok hcg]
        by_cases hc1 : ((pre.contains (outName base w0 h0) ||
            files.any (fun f => f.1 == outName base w0 h0)) && !ow) = true
        · rw [if_pos hc1] at hna ⊢
          rw [if_pos hc1]
          exact ih gs2 _ _ _ _ hna
        · rw [if_neg hc1] at hna ⊢
          rw [if_neg hc1]
          by_cases hc2 : dry = true
          · rw [if_pos hc2] at hna ⊢
            rw [if_pos hc2]
            exact ih gs2 _ _ _ _ hna
          · rw [if_neg hc2] at hna ⊢
            rw [if_neg hc2]
            exact ih gs2 _ _ _ _ hna

theorem planNames_append : ∀ (a b : List Event), planNames (a ++ b) = planNames a ++ planNames b := by
  intro a b
  induction a with
  | nil => rfl
  | cons e rest ih =>
    cases e <;> simp [planNames, ih]

theorem dry_wet_loop {fs : List (String × Container)} {ow : Bool} {pre : List String} :
    ∀ (gs : List (String × List String)) (evsd evsw : List Event) (w s : Nat)
      (wfiles : List (String × List (String × NDArray))),
      evsd = evsw.map okToPlanEv →
      (gs.map Prod.fst).Nodup →
      (∀ f ∈ wfiles, ∃ b w0 h0, f.1 = outName b w0 h0 ∧ b ∉ gs.map Prod.fst) →
      ∃ Δ, (mainLoop fs ow false pre gs evsw w s wfiles).files = wfiles ++ Δ ∧
        mainLoop fs ow true pre gs evsd w s [] =
          ⟨(mainLoop fs ow false pre gs evsw w s wfiles).events.map okToPlanEv,
           (mainLoop fs ow false pre gs evsw w s wfiles).written,
           (mainLoop fs ow false pre gs evsw w s wfiles).skipped,
           [],
           (mainLoop fs ow false pre gs evsw w s wfiles).errorMsg⟩ ∧
        planNames (mainLoop fs ow true pre gs evsd w s []).events =
          planNames evsd ++ Δ.map Prod.fst := by
  intro gs
  induction gs with
  | nil =>
    intro evsd evsw w s wfiles hevs _ _
    refine ⟨[], by simp [mainLoop_nil], ?_, by simp [mainLoop_nil]⟩
    simp only [mainLoop_nil, hevs]
  | cons g rest ih =>
    intro evsd evsw w s wfiles hevs hnd hw
    obtain ⟨base, paths⟩ := g
    rcases hcg : convert_group fs base paths with e | ⟨merged, osz⟩
    · refine ⟨[], ?_, ?_, ?_⟩ <;>
        simp only [mainLoop_cons_err hcg]
      · simp
      · simp [hevs]
      · simp
    · rcases hlen : osz with _ | ⟨w0, _ | ⟨h0, t⟩⟩
      · subst hlen
        refine ⟨[], ?_, ?_, ?_⟩ <;>
          simp only [mainLoop_cons_short hcg (by simp)]
        · simp
        · simp [hevs]
        · simp
      · subst hlen
        refine ⟨[], ?_, ?_, ?_⟩ <;>
          simp only [mainLoop_cons_short hcg (by simp)]
        · simp
        · simp [hevs]
        · simp
      · subst hlen
        have hnd2 : (base :: rest.map Prod.fst).Nodup := by
          simpa only [List.map_cons] using hnd
        have hkeys : base ∉ rest.map Prod.fst := (List.nodup_cons.mp hnd2).1
        have hndr : (rest.map Prod.fst).Nodup := (List.nodup_cons.mp hnd2).2
        have hwany : wfiles.any (fun f => f.1 == outName base w0 h0) = false := by
          apply List.any_eq_false.mpr
          intro f hf hbeq
          rcases hw f hf with ⟨b', w0', h0', hfn, hbn⟩
          have hne : b' ≠ base := by
            intro hbb
            exact hbn (hbb ▸ List.mem_cons_self base (rest.map Prod.fst))
          exact outName_inj hne (by rw [← hfn]; exact (by simpa using hbeq))
        simp only [mainLoop_cons_ok hcg]
        simp only [hwany, List.any_nil, Bool.or_false]
        by_cases hc : (pre.contains (outName base w0 h0) && !ow) = true
        · rw [if_pos hc, if_pos hc]
          have hw' : ∀ f ∈ wfiles, ∃ b w0 h0, f.1 = outName b w0 h0 ∧ b ∉ rest.map Prod.fst := by
            intro f hf
            rcases hw f hf with ⟨b', w0', h0', hfn, hbn⟩
            exact ⟨b', w0', h0', hfn, fun hm => hbn (List.mem_cons_of_mem _ hm)⟩
          rcases ih (evsd ++ [Event.skip (outName base w0 h0)])
              (evsw ++ [Event.skip (outName base w0 h0)]) w (s + 1) wfiles
              (by simp [hevs, okToPlanEv]) hndr hw' with ⟨Δ, hΔ1, hΔ2, hΔ3⟩
          refine ⟨Δ, hΔ1, hΔ2, ?_⟩
          rw [hΔ3, planNames_append]
          simp [planNames]
        · rw [if_neg hc, if_neg hc]
          simp only [eq_self_iff_true, if_true, Bool.false_eq_true, if_false]
          have hw' : ∀ f ∈ wfiles ++ [(outName base w0 h0, merged)],
              ∃ b w0' h0', f.1 = outName b w0' h0' ∧ b ∉ rest.map Prod.fst := by
            intro f hf
            rcases List.mem_append.mp hf with hf | hf
            · rcases hw f hf with ⟨b', w0', h0', hfn, hbn⟩
              exact ⟨b', w0', h0', hfn, fun hm => hbn (List.mem_cons_of_mem _ hm)⟩
            · have : f = (outName base w0 h0, merged) := by simpa using hf
              exact ⟨base, w0, h0, by rw [this], hkeys⟩
          rcases ih (evsd ++ [Event.plan (outName base w0 h0)])
              (evsw ++ [Event.ok (outName base w0 h0)]) (w + 1) s
              (wfiles ++ [(outName base w0 h0, merged)])
              (by simp [hevs, okToPlanEv]) hndr hw' with ⟨Δ, hΔ1, hΔ2, hΔ3⟩
          refine ⟨(outName base w0 h0, merged) :: Δ, ?_, hΔ2, ?_⟩
          · rw [hΔ1]
            simp
          · rw [hΔ3, planNames_append]
            simp [planNames]

/-! ## The collector: `collect_groups` -/

theorem addToGroup_keys (g : List (String × List String)) (b p : String) :
    (addToGroup g b p).map Prod.fst =
      if b ∈ g.map Prod.fst then g.map Prod.fst else g.map Prod.fst ++ [b] := by
  induction g with
  | nil => simp [addToGroup]
  | cons q rest ih =>
    obtain ⟨b0, ps⟩ := q
    by_cases hb : b0 = b
    · subst hb
      simp [addToGroup]
    · have hbeq : (b0 == b) = false := by
        simpa using hb
      simp only [addToGroup, hbeq, Bool.false_eq_true, if_false, List.map_cons, ih]
      by_cases hm : b ∈ rest.map Prod.fst
      · simp [hm, Ne.symm hb]
      · simp [hm, Ne.symm hb]

theorem lookupGroup_cons (b0 : String) (ps : List String)
    (rest : List (String × List String)) (b' : String) :
    lookupGroup ((b0, ps) :: rest) b' = if b0 == b' then ps else lookupGroup rest b' := by
  unfold lookupGroup
  cases hx : (b0 == b') <;> simp [List.find?_cons, hx]

theorem addToGroup_lookup (g : List (String × List String)) (b p b' : String) :
    lookupGroup (addToGroup g b p) b' =
      if b' = b then lookupGroup g b ++ [p] else lookupGroup g b' := by
  induction g with
  | nil =>
    by_cases hb : b' = b
    · subst hb
      simp [addToGroup, lookupGroup_cons, lookupGroup]
    · have hbeq : (b == b') = false := by
        simpa using Ne.symm hb
      simp [addToGroup, lookupGroup_cons, lookupGroup, hb, hbeq]
  | cons q rest ih =>
    obtain ⟨b0, ps⟩ := q
    by_cases hb0 : b0 = b
    · subst hb0
      have hstep : addToGroup ((b0, ps) :: rest) b0 p = (b0, ps ++ [p]) :: rest := by
        simp [addToGroup]
      rw [hstep]
      by_cases hb' : b' = b0
      · subst hb'
        rw [if_pos rfl, lookupGroup_cons, lookupGroup_cons, if_pos (by simp), if_pos (by simp)]
      · have hbeq : (b0 == b') = false := by
          simpa using Ne.symm hb'
        rw [if_neg hb', lookupGroup_cons, lookupGroup_cons, if_neg (by simp [hbeq]),
          if_neg (by simp [hbeq])]
    · have hb0eq : (b0 == b) = false := by
        simpa using hb0
      have hstep : addToGroup ((b0, ps) :: rest) b p = (b0, ps) :: addToGroup rest b p := by
        simp [addToGroup, hb0eq]
      rw [hstep]
      by_cases hb' : b' = b0
      · subst hb'
        rw [lookupGroup_cons, if_pos (by simp), if_neg hb0, lookupGroup_cons, if_pos (by simp)]
      · have hbeq : (b0 == b') = false := by
          simpa using Ne.symm hb'
        rw [lookupGroup_cons, if_neg (by simp [hbeq]), ih]
        by_cases hbb : b' = b
        · rw [if_pos hbb, if_pos hbb, lookupGroup_cons, if_neg (by simp [hb0eq])]
        · rw [if_neg hbb, if_neg hbb, lookupGroup_cons, if_neg (by simp [hbeq])]

theorem addToGroup_keys_nodup {g : List (String × List String)} {b p : String}
    (h : (g.map Prod.fst).Nodup) : ((addToGroup g b p).map Prod.fst).Nodup := by
  rw [addToGroup_keys]
  by_cases hm : b ∈ g.map Prod.fst
  · simpa [hm] using h
  · simp only [hm, if_false]
    simp [List.nodup_append, h, hm]

theorem collect_groups_ok_lookup :
    ∀ (l : List String) (acc G : List (String × List String)),
      collect_groups l acc = .ok G →
      ∀ b, lookupGroup G b = lookupGroup acc b ++ l.filter (fun n => baseOf n == some b) := by
  intro l
  induction l with
  | nil =>
    intro acc G h b
    simp only [collect_groups, Except.ok.injEq] at h
    simp [← h]
  | cons nm rest ih =>
    intro acc G h b
    rcases hm : matchSourceName nm with _ | ⟨b0, w0, h0⟩
    · rw [collect_groups, hm] at h
      exact absurd h (by simp)
    · rw [collect_groups, hm] at h
      have hbase : baseOf nm = some b0 := by
        unfold baseOf
        rw [hm]
      rw [ih _ _ h b, addToGroup_lookup]
      by_cases hb : b = b0
      · subst hb
        rw [if_pos rfl, List.filter_cons_of_pos (by simp [hbase])]
        simp
      · rw [if_neg (fun hc => hb hc), List.filter_cons_of_neg (by simp [hbase, Ne.symm hb])]

theorem collect_groups_ok_keys_mem :
    ∀ (l : List String) (acc G : List (String × List String)),
      collect_groups l acc = .ok G →
      ∀ b, b ∈ G.map Prod.fst ↔ (b ∈ acc.map Prod.fst ∨ ∃ n ∈ l, baseOf n = some b) := by
  intro l
  induction l with
  | nil =>
    intro acc G h b
    simp only [collect_groups, Except.ok.injEq] at h
    simp [← h]
  | cons nm rest ih =>
    intro acc G h b
    rcases hm : matchSourceName nm with _ | ⟨b0, w0, h0⟩
    · rw [collect_groups, hm] at h
      exact absurd h (by simp)
    · rw [collect_groups, hm] at h
      have hbase : baseOf nm = some b0 := by
        unfold baseOf
        rw [hm]
      have hsplit : (∃ n ∈ nm :: rest, baseOf n = some b) ↔
          (b0 = b ∨ ∃ n ∈ rest, baseOf n = some b) := by
        constructor
        · rintro ⟨n, hn, hbn⟩
          rcases List.mem_cons.mp hn with hn | hn
          · subst hn
            rw [hbase] at hbn
            exact Or.inl (Option.some.inj hbn)
          · exact Or.inr ⟨n, hn, hbn⟩
        · rintro (hb | ⟨n, hn, hbn⟩)
          · exact ⟨nm, List.mem_cons_self nm rest, by rw [hbase, hb]⟩
          · exact ⟨n, List.mem_cons_of_mem nm hn, hbn⟩
      rw [hsplit, ih _ _ h b, addToGroup_keys]
      by_cases hin : b0 ∈ acc.map Prod.fst
      · rw [if_pos hin]
        constructor
        · rintro (hc | hc)
          · exact Or.inl hc
          · exact Or.inr (Or.inr hc)
        · rintro (hc | hc | hc)
          · exact Or.inl hc
          · exact Or.inl (hc ▸ hin)
          · exact Or.inr hc
      · rw [if_neg hin]
        simp only [List.mem_append, List.mem_singleton]
        constructor
        · rintro ((hc | hc) | hc)
          · exact Or.inl hc
          · exact Or.inr (Or.inl hc.symm)
          · exact Or.inr (Or.inr hc)
        · rintro (hc | hc | hc)
          · exact Or.inl (Or.inl hc)
          · exact Or.inl (Or.inr hc.symm)
          · exact Or.inr hc

theorem collect_groups_ok_keys_nodup :
    ∀ (l : List String) (acc G : List (String × List String)),
      collect_groups l acc = .ok G →
      (acc.map Prod.fst).Nodup → (G.map Prod.fst).Nodup := by
  intro l
  induction l with
  | nil =>
    intro acc G h hnd
    simp only [collect_groups, Except.ok.injEq] at h
    rwa [← h]
  | cons nm rest ih =>
    intro acc G h hnd
    rcases hm : matchSourceName nm with _ | ⟨b0, w0, h0⟩
    · rw [collect_groups, hm] at h
      exact absurd h (by simp)
    · rw [collect_groups, hm] at h
      exact ih _ _ h (addToGroup_keys_nodup hnd)

theorem collect_groups_ok_all_match :
    ∀ (l : List String) (acc G : List (String × List String)),
      collect_groups l acc = .ok G →
      ∀ n ∈ l, (matchSourceName n).isSome = true := by
  intro l
  induction l with
  | nil =>
    intro acc G _ n hn
    cases hn
  | cons nm rest ih =>
    intro acc G h n hn
    rcases hm : matchSourceName nm with _ | ⟨b0, w0, h0⟩
    · rw [collect_groups, hm] at h
      exact absurd h (by simp)
    · rw [collect_groups, hm] at h
      rcases List.mem_cons.mp hn with hn | hn
      · rw [hn, hm]
        rfl
      · exact ih _ _ h n hn

theorem collect_groups_ok_of_all :
    ∀ (l : List String) (acc : List (String × List String)),
      (∀ n ∈ l, (matchSourceName n).isSome = true) →
      ∃ G, collect_groups l acc = .ok G := by
  intro l
  induction l with
  | nil =>
    intro acc _
    exact ⟨acc, rfl⟩
  | cons nm rest ih =>
    intro acc hall
    rcases hm : matchSourceName nm with _ | ⟨b0, w0, h0⟩
    · have := hall nm (List.mem_cons_self nm rest)
      rw [hm] at this
      cases this
    · rcases ih (addToGroup acc b0 nm) (fun n hn => hall n (List.mem_cons_of_mem nm hn)) with ⟨G, hG⟩
      refine ⟨G, ?_⟩
      rw [collect_groups, hm]
      exact hG

theorem collect_groups_first_bad :
    ∀ (l1 : List String) (nm : String) (l2 : List String) (acc : List (String × List String)),
      (∀ n ∈ l1, (matchSourceName n).isSome = true) →
      matchSourceName nm = none →
      collect_groups (l1 ++ nm :: l2) acc =
        .error ("Unexpected source filename format: " ++ nm) := by
  intro l1
  induction l1 with
  | nil =>
    intro nm l2 acc _ hbad
    rw [List.nil_append, collect_groups, hbad]
  | cons n1 rest ih =>
    intro nm l2 acc hall hbad
    rcases hm : matchSourceName n1 with _ | ⟨b0, w0, h0⟩
    · have := hall n1 (List.mem_cons_self n1 rest)
      rw [hm] at this
      cases this
    · rw [List.cons_append, collect_groups, hm]
      exact ih nm l2 _ (fun n hn => hall n (List.mem_cons_of_mem n1 hn)) hbad

/-! ## Determinism: permutation invariance of the run -/

theorem convert_group_congr_perm {fs : List (String × Container)} {b : String}
    {ps ps' : List String} (h : ps.Perm ps') :
    convert_group fs b ps = convert_group fs b ps' := by
  unfold convert_group
  rw [sortStrings_eq_of_perm h]

theorem forall2_map_same {α β : Type} {R : β → β → Prop} {K : List α} {f g : α → β}
    (h : ∀ b ∈ K, R (f b) (g b)) : List.Forall₂ R (K.map f) (K.map g) := by
  induction K with
  | nil => exact List.Forall₂.nil
  | cons k rest ih =>
    exact List.Forall₂.cons (h k (List.mem_cons_self k rest))
      (ih (fun b hb => h b (List.mem_cons_of_mem k hb)))

theorem mainLoop_congr_paths {fs : List (String × Container)} {ow dry : Bool}
    {pre : List String} :
    ∀ (gs gs' : List (String × List String)),
      List.Forall₂ (fun x y => x.1 = y.1 ∧ convert_group fs x.1 x.2 = convert_group fs y.1 y.2)
        gs gs' →
      ∀ (evs : List Event) (w s : Nat) (files : List (String × List (String × NDArray))),
        mainLoop fs ow dry pre gs evs w s files = mainLoop fs ow dry pre gs' evs w s files := by
  intro gs gs' hrel
  induction hrel with
  | nil => intro evs w s files; rfl
  | @cons x y rest rest' hxy hrest ih =>
    intro evs w s files
    obtain ⟨base, paths⟩ := x
    obtain ⟨base', paths'⟩ := y
    obtain ⟨hb, hcg⟩ := hxy
    simp only at hb hcg
    subst hb
    rcases hc : convert_group fs base paths with e | ⟨merged, osz⟩
    · rw [mainLoop_cons_err hc, mainLoop_cons_err (hcg ▸ hc)]
    · rcases hlen : osz with _ | ⟨w0, _ | ⟨h0, t⟩⟩
      · subst hlen
        rw [mainLoop_cons_short hc (by simp), mainLoop_cons_short (hcg ▸ hc) (by simp)]
      · subst hlen
        rw [mainLoop_cons_short hc (by simp), mainLoop_cons_short (hcg ▸ hc) (by simp)]
      · subst hlen
        rw [mainLoop_cons_ok hc, mainLoop_cons_ok (hcg ▸ hc)]
        by_cases hc1 : ((pre.contains (outName base w0 h0) ||
            files.any (fun f => f.1 == outName base w0 h0)) && !ow) = true
        · rw [if_pos hc1, if_pos hc1, ih]
        · rw [if_neg hc1, if_neg hc1]
          by_cases hc2 : dry = true
          · rw [if_pos hc2, if_pos hc2, ih]
          · rw [if_neg hc2, if_neg hc2, ih]

theorem listEmpty_iff_no_mem {α : Type} (l : List α) :
    l.isEmpty = true ↔ ∀ a, a ∉ l := by
  cases l with
  | nil => simp
  | cons a rest =>
    simp only [List.isEmpty_cons, Bool.false_eq_true, false_iff, not_forall]
    exact ⟨a, by simp⟩

theorem isEmpty_map_keys (g : List (String × List String)) :
    g.isEmpty = (g.map Prod.fst).isEmpty := by
  cases g <;> rfl

theorem runMain_collect_ok {fs : List (String × Container)} {listing pre : List String}
    {ow dry : Bool} {g : List (String × List String)}
    (h : collect_groups (globNpz listing) [] = .ok g) :
    runMain fs listing pre ow dry =
      if g.isEmpty then ⟨[], 0, 0, [], none⟩
      else mainLoop fs ow dry pre (sortedGroups g) [] 0 0 [] := by
  unfold runMain
  rw [h]

theorem runMain_collect_err {fs : List (String × Container)} {listing pre : List String}
    {ow dry : Bool} {e : String}
    (h : collect_groups (globNpz listing) [] = .error e) :
    runMain fs listing pre ow dry = ⟨[], 0, 0, [], some e⟩ := by
  unfold runMain
  rw [h]

theorem runMain_perm {fs : List (String × Container)} {listing listing' pre : List String}
    {ow dry : Bool} (hp : listing.Perm listing')
    (hall : ∀ n ∈ globNpz listing, (matchSourceName n).isSome = true) :
    runMain fs listing pre ow dry = runMain fs listing' pre ow dry := by
  have hglob : (globNpz listing).Perm (globNpz listing') := hp.filter _
  have hall' : ∀ n ∈ globNpz listing', (matchSourceName n).isSome = true :=
    fun n hn => hall n (hglob.mem_iff.mpr hn)
  rcases collect_groups_ok_of_all (globNpz listing) [] hall with ⟨G, hG⟩
  rcases collect_groups_ok_of_all (globNpz listing') [] hall' with ⟨G', hG'⟩
  have hmem : ∀ b, b ∈ G.map Prod.fst ↔ b ∈ G'.map Prod.fst := by
    intro b
    rw [collect_groups_ok_keys_mem _ _ _ hG b, collect_groups_ok_keys_mem _ _ _ hG' b]
    simp only [List.map_nil, List.not_mem_nil, false_or]
    constructor
    · rintro ⟨n, hn, hb⟩
      exact ⟨n, hglob.mem_iff.mp hn, hb⟩
    · rintro ⟨n, hn, hb⟩
      exact ⟨n, hglob.mem_iff.mpr hn, hb⟩
  have hnd : (G.map Prod.fst).Nodup := collect_groups_ok_keys_nodup _ _ _ hG (by simp)
  have hnd' : (G'.map Prod.fst).Nodup := collect_groups_ok_keys_nodup _ _ _ hG' (by simp)
  have hkeysperm : (G.map Prod.fst).Perm (G'.map Prod.fst) :=
    (List.perm_ext_iff_of_nodup hnd hnd').mpr hmem
  have hkeys : sortStrings (G.map Prod.fst) = sortStrings (G'.map Prod.fst) :=
    sortStrings_eq_of_perm hkeysperm
  have hemp : G.isEmpty = G'.isEmpty := by
    rw [isEmpty_map_keys, isEmpty_map_keys]
    by_cases he : (G.map Prod.fst).isEmpty = true
    · rw [he]
      symm
      rw [listEmpty_iff_no_mem] at he ⊢
      intro b hb
      exact he b ((hmem b).mpr hb)
    · have he' : (G'.map Prod.fst).isEmpty = false := by
        cases hx : (G'.map Prod.fst).isEmpty
        · rfl
        · exfalso
          apply he
          rw [listEmpty_iff_no_mem] at hx ⊢
          intro b hb
          exact hx b ((hmem b).mp hb)
      rw [he']
      cases hx : (G.map Prod.fst).isEmpty
      · rfl
      · exact absurd hx he
  rw [runMain_collect_ok hG, runMain_collect_ok hG']
  by_cases he : G.isEmpty = true
  · rw [if_pos he, if_pos (hemp ▸ he)]
  · rw [if_neg he, if_neg (fun hc => he (hemp ▸ hc))]
    unfold sortedGroups
    rw [hkeys]
    apply mainLoop_congr_paths
    apply forall2_map_same
    intro b _
    refine ⟨rfl, ?_⟩
    apply convert_group_congr_perm
    rw [collect_groups_ok_lookup _ _ _ hG b, collect_groups_ok_lookup _ _ _ hG' b]
    have hl0 : lookupGroup [] b = [] := rfl
    rw [hl0, List.nil_append, List.nil_append]
    exact hglob.filter _

/-! ## The filename regex: characterizing `matchSourceName` -/

theorem takeWhile_all_append {p : Char → Bool} :
    ∀ (u : List Char) (c : Char) (v : List Char), (∀ a ∈ u, p a = true) → p c = false →
      (u ++ c :: v).takeWhile p = u ∧ (u ++ c :: v).dropWhile p = c :: v := by
  intro u
  induction u with
  | nil =>
    intro c v _ hc
    simp [List.takeWhile_cons, List.dropWhile_cons, hc]
  | cons a u ih =>
    intro c v hu hc
    have ha : p a = true := hu a (List.mem_cons_self a u)
    rcases ih c v (fun x hx => hu x (List.mem_cons_of_mem a hx)) hc with ⟨h1, h2⟩
    simp [List.takeWhile_cons, List.dropWhile_cons, ha, h1, h2]

theorem isEmpty_false_of_ne_nil {l : List Char} (h : l ≠ []) : l.isEmpty = false := by
  cases hx : l.isEmpty
  · rfl
  · exact absurd (List.isEmpty_iff.mp hx) h

theorem contains_false_of_not_mem {l : List Char} {a : Char} (h : a ∉ l) :
    l.contains a = false := by
  cases hx : l.contains a
  · rfl
  · exact absurd (by simpa using hx) h

theorem matchRev_some_iff {rcs b w h : List Char} :
    matchRev rcs = some (b, w, h) ↔
      (rcs = ['z', 'p', 'n', '.'] ++ (h.reverse ++ 'x' :: (w.reverse ++ '_' :: b.reverse)) ∧
       w ≠ [] ∧ h ≠ [] ∧ (∀ a ∈ w, isPyDigit a = true) ∧ (∀ a ∈ h, isPyDigit a = true) ∧
       '\n' ∉ b) := by
  constructor
  · intro hm
    unfold matchRev at hm
    split at hm
    case h_2 => exact absurd hm (by simp)
    case h_1 rest =>
      split at hm
      case isTrue => exact absurd hm (by simp)
      case isFalse hne =>
        split at hm
        case h_2 => exact absurd hm (by simp)
        case h_1 rest2 heq1 =>
          split at hm
          case isTrue => exact absurd hm (by simp)
          case isFalse hne2 =>
            split at hm
            case h_2 => exact absurd hm (by simp)
            case h_1 baserev heq2 =>
              split at hm
              case isTrue => exact absurd hm (by simp)
              case isFalse hnnl =>
                simp only [Option.some.injEq, Prod.mk.injEq] at hm
                obtain ⟨hb, hw, hh⟩ := hm
                subst hb hw hh
                refine ⟨?_, ?_, ?_, ?_, ?_, ?_⟩
                · have hr1 : rest.takeWhile isPyDigit ++ rest.dropWhile isPyDigit = rest :=
                    List.takeWhile_append_dropWhile isPyDigit rest
                  have hr2 : rest2.takeWhile isPyDigit ++ rest2.dropWhile isPyDigit = rest2 :=
                    List.takeWhile_append_dropWhile isPyDigit rest2
                  rw [heq1] at hr1
                  rw [heq2] at hr2
                  have hstep : rest = rest.takeWhile isPyDigit ++
                      'x' :: (rest2.takeWhile isPyDigit ++ '_' :: baserev) :=
                    hr1.symm.trans (congrArg
                      (fun t => rest.takeWhile isPyDigit ++ 'x' :: t) hr2.symm)
                  simp only [List.reverse_reverse]
                  conv_lhs => rw [hstep]
                  rfl
                · intro hwnil
                  apply hne2
                  rw [List.isEmpty_iff]
                  have := congrArg List.reverse hwnil
                  simpa using this
                · intro hhnil
                  apply hne
                  rw [List.isEmpty_iff]
                  have := congrArg List.reverse hhnil
                  simpa using this
                · intro a ha
                  exact List.mem_takeWhile_imp (List.mem_reverse.mp ha)
                · intro a ha
                  exact List.mem_takeWhile_imp (List.mem_reverse.mp ha)
                · intro hnl
                  apply hnnl
                  simpa using List.mem_reverse.mpr hnl
  · rintro ⟨hshape, hwne, hhne, hwd, hhd, hbnl⟩
    subst hshape
    unfold matchRev
    have hdig1 : ∀ a ∈ h.reverse, isPyDigit a = true :=
      fun a ha => hhd a (List.mem_reverse.mp ha)
    have hdig2 : ∀ a ∈ w.reverse, isPyDigit a = true :=
      fun a ha => hwd a (List.mem_reverse.mp ha)
    rcases takeWhile_all_append h.reverse 'x' (w.reverse ++ '_' :: b.reverse) hdig1 (by decide)
      with ⟨ht1, hd1⟩
    rcases takeWhile_all_append w.reverse '_' b.reverse hdig2 (by decide) with ⟨ht2, hd2⟩
    simp only [List.cons_append, List.nil_append]
    rw [ht1, hd1]
    rw [isEmpty_false_of_ne_nil (fun hc => hhne (by simpa using congrArg List.reverse hc))]
    simp only [Bool.false_eq_true, if_false]
    rw [ht2, hd2]
    rw [isEmpty_false_of_ne_nil (fun hc => hwne (by simpa using congrArg List.reverse hc))]
    simp only [Bool.false_eq_true, if_false]
    rw [contains_false_of_not_mem (fun hc => hbnl (List.mem_reverse.mp hc))]
    simp

theorem stripNL_id {cs : List Char} (hnl : '\n' ∉ cs) : stripNL cs = cs := by
  unfold stripNL
  rw [if_neg]
  intro hc
  exact hnl (List.mem_of_mem_getLast? (by simp [hc]))

theorem splitSpec_iff_matchRev {name b w h : String} (hnl : '\n' ∉ name.data) :
    splitSpec name b w h = true ↔
      matchRev name.data.reverse = some (b.data, w.data, h.data) := by
  have l1 : "_".data = ['_'] := rfl
  have l2 : "x".data = ['x'] := rfl
  have l3 : ".npz".data = ['.', 'n', 'p', 'z'] := rfl
  have hshape_eq : (['z', 'p', 'n', '.'] ++
      (h.data.reverse ++ 'x' :: (w.data.reverse ++ '_' :: b.data.reverse))).reverse =
      b.data ++ '_' :: (w.data ++ 'x' :: (h.data ++ ['.', 'n', 'p', 'z'])) := by
    simp [List.reverse_append, List.append_assoc]
  rw [matchRev_some_iff, List.reverse_eq_iff, List.reverse_eq_iff.symm.trans (Iff.of_eq rfl)]
  constructor
  · intro hs
    unfold splitSpec isDigits at hs
    simp only [Bool.and_eq_true, beq_iff_eq, Bool.not_eq_true', List.all_eq_true] at hs
    obtain ⟨⟨hname, hwe, hwd⟩, hhe, hhd⟩ := hs
    have hdata : name.data = b.data ++ '_' :: (w.data ++ 'x' :: (h.data ++ ['.', 'n', 'p', 'z'])) := by
      rw [hname]
      simp [String.data_append, List.append_assoc, l1, l2, l3]
    refine ⟨?_, ?_, ?_, hwd, hhd, ?_⟩
    · rw [List.reverse_eq_iff, hshape_eq]
      exact hdata
    · intro hc
      have hxe : w.isEmpty = true := (String.isEmpty_iff w).mpr (String.ext (by simpa using hc))
      rw [hxe] at hwe
      cases hwe
    · intro hc
      have hxe : h.isEmpty = true := (String.isEmpty_iff h).mpr (String.ext (by simpa using hc))
      rw [hxe] at hhe
      cases hhe
    · intro hc
      exact hnl (by rw [hdata]; simp [hc])
  · rintro ⟨hshape, hwne, hhne, hwd, hhd, _⟩
    have hdata : name.data = b.data ++ '_' :: (w.data ++ 'x' :: (h.data ++ ['.', 'n', 'p', 'z'])) := by
      rw [← hshape_eq, ← List.reverse_eq_iff]
      exact hshape
    unfold splitSpec isDigits
    simp only [Bool.and_eq_true, beq_iff_eq, Bool.not_eq_true', List.all_eq_true]
    refine ⟨⟨?_, ?_, hwd⟩, ?_, hhd⟩
    · rw [String.ext_iff, hdata]
      simp [String.data_append, List.append_assoc, l1, l2, l3]
    · cases hx : w.isEmpty
      · rfl
      · exfalso
        have hxe := (String.isEmpty_iff w).mp hx
        exact hwne (by rw [hxe])
    · cases hx : h.isEmpty
      · rfl
      · exfalso
        have hxe := (String.isEmpty_iff h).mp hx
        exact hhne (by rw [hxe])

theorem matchSourceName_iff {name b w h : String} (hnl : '\n' ∉ name.data) :
    matchSourceName name = some (b, w, h) ↔ splitSpec name b w h = true := by
  unfold matchSourceName
  rw [stripNL_id hnl, splitSpec_iff_matchRev hnl]
  cases hr : matchRev name.data.reverse with
  | none =>
    constructor
    · intro hc
      exact absurd hc (by simp)
    · intro hc
      cases hc
  | some t =>
    obtain ⟨bl, wl, hl⟩ := t
    constructor
    · intro hc
      have hc' : some (String.mk bl, String.mk wl, String.mk hl) = some (b, w, h) := hc
      simp only [Option.some.injEq, Prod.mk.injEq] at hc'
      obtain ⟨hb, hw, hh⟩ := hc'
      rw [← hb, ← hw, ← hh]
    · intro hc
      simp only [Option.some.injEq, Prod.mk.injEq] at hc
      obtain ⟨hb, hw, hh⟩ := hc
      show some (String.mk bl, String.mk wl, String.mk hl) = some (b, w, h)
      rw [hb, hw, hh]

/-! ## Merged-mapping lookups and shapes: small helpers -/

theorem string_append_right_ne {a b s1 s2 : String}
    (hlen : s1.data.length = s2.data.length) (hne : s1 ≠ s2) : a ++ s1 ≠ b ++ s2 := by
  intro hc
  have hd : a.data ++ s1.data = b.data ++ s2.data := by
    rw [← data_append, ← data_append, hc]
  exact hne (String.ext (List.append_inj' hd hlen).2)

theorem latDims_of_shape {c : Container} {s : List Nat} {hh ww : Nat}
    (hs : (getC c "latents").shape = s ++ [hh, ww]) : latDims c = some (hh, ww) := by
  unfold latDims
  rw [hs]
  simp [List.reverse_append]

theorem latDims_none_of_short {c : Container}
    (hs : (getC c "latents").shape.length < 2) : latDims c = none := by
  unfold latDims
  rcases hr : (getC c "latents").shape.reverse with _ | ⟨x, _ | ⟨y, t⟩⟩
  · rfl
  · rfl
  · exfalso
    have := congrArg List.length hr
    simp at this
    omega

theorem getA_append_left {m1 m2 : List (String × NDArray)} {k : String} {v : NDArray}
    (h : getA m1 k = some v) : getA (m1 ++ m2) k = some v := by
  unfold getA at h ⊢
  rw [List.find?_append]
  rcases hf : m1.find? (fun q => q.1 == k) with _ | q
  · rw [hf] at h
    cases h
  · rw [hf] at h
    simpa [hf] using h

theorem getA_append_right {m1 m2 : List (String × NDArray)} {k : String}
    (h : ∀ q ∈ m1, q.1 ≠ k) : getA (m1 ++ m2) k = getA m2 k := by
  unfold getA
  rw [List.find?_append]
  have hf : m1.find? (fun q => q.1 == k) = none := by
    rw [List.find?_eq_none]
    intro q hq
    simpa using h q hq
  rw [hf]
  rfl

theorem contribOn_getA {c : Container} {sfx kb : String} :
    ∀ bases : List String, bases.Nodup → kb ∈ bases → hasKeyC c kb = true →
      getA (contribOn c sfx bases) (kb ++ sfx) = some (getC c kb) := by
  intro bases
  induction bases with
  | nil =>
    intro _ hm
    cases hm
  | cons kb' rest ih =>
    intro hnd hm hk
    rw [contribOn_cons]
    rcases List.mem_cons.mp hm with hm | hm
    · subst hm
      rw [if_pos hk]
      unfold getA
      simp [List.find?_cons]
    · have hne : kb' ≠ kb := by
        intro hc
        subst hc
        exact (List.nodup_cons.mp hnd).1 hm
      have htail := ih (List.nodup_cons.mp hnd).2 hm hk
      cases hk' : hasKeyC c kb' with
      | false =>
        simpa using htail
      | true =>
        rw [if_pos rfl]
        rw [show ([(kb' ++ sfx, getC c kb')] ++ contribOn c sfx rest) =
          (kb' ++ sfx, getC c kb') :: contribOn c sfx rest from rfl]
        unfold getA at htail ⊢
        rw [List.find?_cons_of_neg]
        · exact htail
        · intro hc
          have hceq : kb' ++ sfx = kb ++ sfx := by simpa using hc
          exact hne (string_append_right_cancel hceq)

theorem mergedInsert_head_dup {base : String} {c : Container} {sfx kb : String}
    {rest : List String} {merged : List (String × NDArray)}
    (hk : hasKeyC c kb = true) (hdup : merged.any (fun p => p.1 == kb ++ sfx) = true) :
    mergedInsert base c sfx (kb :: rest) merged =
      .error ("Duplicate merged key '" ++ (kb ++ sfx) ++ "' for base '" ++ base ++ "'") := by
  simp only [mergedInsert, hk, if_true, hdup]

theorem convertLoop_append {fs : List (String × Container)} {base : String} :
    ∀ (l1 l2 : List String) (merged : List (String × NDArray)) (osz : Option (List Int))
      (m : List (String × NDArray)) (o : Option (List Int)),
      convertLoop fs base l1 merged osz = .ok (m, o) →
      convertLoop fs base (l1 ++ l2) merged osz = convertLoop fs base l2 m o := by
  intro l1
  induction l1 with
  | nil =>
    intro l2 merged osz m o h
    simp only [convertLoop, Except.ok.injEq, Prod.mk.injEq] at h
    rw [List.nil_append, h.1, h.2]
  | cons p rest ih =>
    intro l2 merged osz m o h
    rcases hl : lookupFS fs p with _ | c
    · rw [convertLoop_cons_none hl] at h
      exact absurd h (by simp)
    · rw [convertLoop_cons_some hl] at h
      rw [List.cons_append, convertLoop_cons_some hl]
      rcases hpf : processFile base p c merged osz with e | ⟨m1, o1⟩
      · rw [hpf] at h
        exact absurd h (by simp)
      · rw [hpf] at h
        have h' : convertLoop fs base rest m1 (some o1) = .ok (m, o) := h
        show convertLoop fs base (rest ++ l2) m1 (some o1) = _
        exact ih l2 _ _ _ _ h'

theorem contrib_key_shape {c : Container} {q : String × NDArray} (hq : q ∈ contrib c) :
    ∃ kb ∈ MERGED_KEY_BASES, q.1 = kb ++ suffixOf c := by
  unfold contrib contribOn at hq
  rcases List.mem_map.mp hq with ⟨kb, hkb, hqe⟩
  exact ⟨kb, List.mem_of_mem_filter hkb, by rw [← hqe]⟩

/-! ## The claims -/

/-- C1: for a group of two source files for base `img` whose latents
shapes end in (32, 48) and (64, 96) and whose `original_size` is
[1024, 1536] in both, `convert_group` returns exactly the two files'
contributions — for every recognized key base present in a file
(the three required ones always, `latents_flipped`/`alpha_mask` when
present) one entry `<key base>_32x48` resp. `<key base>_64x96` bound to
that file's array — with merged size [1024, 1536], and the output file
name computed by `main` is `img_1024x1536_sdxl.npz`. -/
theorem C1_merge_correctness {p1 p2 : String} {c1 c2 : Container} {s1 s2 : List Nat}
    (hle : strLe p1 p2 = true) (hne : p1 ≠ p2)
    (hk1l : hasKeyC c1 "latents" = true) (hk1o : hasKeyC c1 "original_size" = true)
    (hk1c : hasKeyC c1 "crop_ltrb" = true)
    (hk2l : hasKeyC c2 "latents" = true) (hk2o : hasKeyC c2 "original_size" = true)
    (hk2c : hasKeyC c2 "crop_ltrb" = true)
    (hs1 : (getC c1 "latents").shape = s1 ++ [32, 48])
    (hs2 : (getC c2 "latents").shape = s2 ++ [64, 96])
    (ho1 : osizeOf c1 = [1024, 1536]) (ho2 : osizeOf c2 = [1024, 1536]) :
    convert_group [(p1, c1), (p2, c2)] "img" [p1, p2] =
      .ok (contrib c1 ++ contrib c2, [1024, 1536]) ∧
    contrib c1 = (MERGED_KEY_BASES.filter (fun kb => hasKeyC c1 kb)).map
      (fun kb => (kb ++ "_32x48", getC c1 kb)) ∧
    contrib c2 = (MERGED_KEY_BASES.filter (fun kb => hasKeyC c2 kb)).map
      (fun kb => (kb ++ "_64x96", getC c2 kb)) ∧
    (∀ kb ∈ MERGED_KEY_BASES, hasKeyC c1 kb = true →
      getA (contrib c1 ++ contrib c2) (kb ++ "_32x48") = some (getC c1 kb)) ∧
    (∀ kb ∈ MERGED_KEY_BASES, hasKeyC c2 kb = true →
      getA (contrib c1 ++ contrib c2) (kb ++ "_64x96") = some (getC c2 kb)) ∧
    outName "img" 1024 1536 = "img_1024x1536_sdxl.npz" := by
  have hld1 : latDims c1 = some (32, 48) := latDims_of_shape hs1
  have hld2 : latDims c2 = some (64, 96) := latDims_of_shape hs2
  have hsfx1 : suffixOf c1 = "_32x48" := by
    rw [suffixOf_eq hld1]
    decide
  have hsfx2 : suffixOf c2 = "_64x96" := by
    rw [suffixOf_eq hld2]
    decide
  have hwf1 : wfC c1 = true := by
    unfold wfC
    rw [hk1l, hk1o, hk1c, hld1]
    rfl
  have hwf2 : wfC c2 = true := by
    unfold wfC
    rw [hk2l, hk2o, hk2c, hld2]
    rfl
  have hl1 : lookupFS [(p1, c1), (p2, c2)] p1 = some c1 := by
    unfold lookupFS
    simp [List.find?_cons]
  have hbne : (p1 == p2) = false := by
    simpa using hne
  have hl2 : lookupFS [(p1, c1), (p2, c2)] p2 = some c2 := by
    unfold lookupFS
    simp [List.find?_cons, hbne]
  have hc1eq : contrib c1 = (MERGED_KEY_BASES.filter (fun kb => hasKeyC c1 kb)).map
      (fun kb => (kb ++ "_32x48", getC c1 kb)) := by
    unfold contrib contribOn
    rw [hsfx1]
  have hc2eq : contrib c2 = (MERGED_KEY_BASES.filter (fun kb => hasKeyC c2 kb)).map
      (fun kb => (kb ++ "_64x96", getC c2 kb)) := by
    unfold contrib contribOn
    rw [hsfx2]
  have hsort : sortStrings [p1, p2] = [p1, p2] := sortStrings_pair hle
  have hflat : ((sortStrings [p1, p2]).map (contribAt [(p1, c1), (p2, c2)])).flatten =
      contrib c1 ++ contrib c2 := by
    rw [hsort]
    simp only [List.map_cons, List.map_nil, List.flatten_cons, List.flatten_nil,
      List.append_nil]
    rw [contribAt_eq hl1, contribAt_eq hl2]
    rfl
  have hnd : (keysOf (((sortStrings [p1, p2]).map (contribAt [(p1, c1), (p2, c2)])).flatten)).Nodup := by
    rw [hflat, keysOf_append]
    have hfull : ((MERGED_KEY_BASES.map (fun kb => kb ++ "_32x48")) ++
        (MERGED_KEY_BASES.map (fun kb => kb ++ "_64x96"))).Nodup := by decide
    apply List.Nodup.sublist _ hfull
    apply List.Sublist.append
    · rw [hc1eq]
      unfold keysOf
      rw [List.map_map]
      exact List.Sublist.map _ (List.filter_sublist _)
    · rw [hc2eq]
      unfold keysOf
      rw [List.map_map]
      exact List.Sublist.map _ (List.filter_sublist _)
  have hmain := @convert_group_ok_of [(p1, c1), (p2, c2)] ("img") [p1, p2] [1024, 1536] (by simp)
    (by
      intro p hp
      rcases List.mem_cons.mp hp with hp | hp
      · subst hp
        exact ⟨c1, hl1, hwf1, ho1⟩
      · have hp2 : p = p2 := by simpa using hp
        subst hp2
        exact ⟨c2, hl2, hwf2, ho2⟩)
    hnd
  rw [hflat] at hmain
  refine ⟨hmain, hc1eq, hc2eq, ?_, ?_, by rfl⟩
  · intro kb hkb hk
    rw [← hsfx1]
    exact getA_append_left (contribOn_getA MERGED_KEY_BASES MERGED_KEY_BASES_nodup hkb hk)
  · intro kb hkb hk
    have hskip : ∀ q ∈ contrib c1, q.1 ≠ kb ++ "_64x96" := by
      intro q hq hcq
      rcases contrib_key_shape hq with ⟨kb1, _, hq1⟩
      rw [hq1, hsfx1] at hcq
      exact string_append_right_ne (by decide) (by decide) hcq
    rw [getA_append_right hskip, ← hsfx2]
    exact contribOn_getA MERGED_KEY_BASES MERGED_KEY_BASES_nodup hkb hk

theorem C1_merge_correctness_witness :
    convert_group
      [("img_256x384.npz",
        [("latents", ⟨[4, 32, 48], [7]⟩), ("original_size", ⟨[2], [1024, 1536]⟩),
         ("crop_ltrb", ⟨[4], [0, 0, 0, 0]⟩)]),
       ("img_512x768.npz",
        [("latents", ⟨[4, 64, 96], [9]⟩), ("original_size", ⟨[2], [1024, 1536]⟩),
         ("crop_ltrb", ⟨[4], [0, 1, 2, 3]⟩), ("alpha_mask", ⟨[512, 768], [1]⟩)])]
      "img" ["img_256x384.npz", "img_512x768.npz"] =
      .ok (contrib
        [("latents", ⟨[4, 32, 48], [7]⟩), ("original_size", ⟨[2], [1024, 1536]⟩),
         ("crop_ltrb", ⟨[4], [0, 0, 0, 0]⟩)] ++
        contrib
        [("latents", ⟨[4, 64, 96], [9]⟩), ("original_size", ⟨[2], [1024, 1536]⟩),
         ("crop_ltrb", ⟨[4], [0, 1, 2, 3]⟩), ("alpha_mask", ⟨[512, 768], [1]⟩)],
        [1024, 1536]) ∧
    outName "img" 1024 1536 = "img_1024x1536_sdxl.npz" := by
  have h := @C1_merge_correctness
    ("img_256x384.npz") ("img_512x768.npz")
    ([("latents", ⟨[4, 32, 48], [7]⟩), ("original_size", ⟨[2], [1024, 1536]⟩),
      ("crop_ltrb", ⟨[4], [0, 0, 0, 0]⟩)])
    ([("latents", ⟨[4, 64, 96], [9]⟩), ("original_size", ⟨[2], [1024, 1536]⟩),
      ("crop_ltrb", ⟨[4], [0, 1, 2, 3]⟩), ("alpha_mask", ⟨[512, 768], [1]⟩)])
    [4] [4]
    (by decide) (by decide) (by decide) (by decide) (by decide) (by decide) (by decide)
    (by decide) (by decide) (by decide) (by decide) (by decide)
  exact ⟨h.1, h.2.2.2.2.2⟩

/-- C3: when two files of a group have identical latent last-two
dimensions, the merger fails with a duplicate-key error naming the
duplicated key (always `latents_<h>x<w>`, since `latents` is required
and tried first) and the base identifier; and in general a successful
merge binds every suffixed key exactly once — an insertion hitting an
existing key raises instead of overwriting. -/
theorem C3_duplicate_key {p1 p2 base : String} {c1 c2 : Container} {hh ww : Nat}
    (hle : strLe p1 p2 = true) (hne : p1 ≠ p2)
    (hwf1 : wfC c1 = true) (hwf2 : wfC c2 = true)
    (hsz : osizeOf c1 = osizeOf c2)
    (hld1 : latDims c1 = some (hh, ww)) (hld2 : latDims c2 = some (hh, ww)) :
    (convert_group [(p1, c1), (p2, c2)] base [p1, p2] =
      .error ("Duplicate merged key '" ++ ("latents" ++ suffixOf c2) ++ "' for base '" ++
        base ++ "'") ∧
     suffixOf c2 = "_" ++ toString hh ++ "x" ++ toString ww) ∧
    (∀ (fs : List (String × Container)) (b : String) (ps : List String)
        (m : List (String × NDArray)) (S : List Int),
      convert_group fs b ps = .ok (m, S) → (keysOf m).Nodup) := by
  constructor
  · have hl1 : lookupFS [(p1, c1), (p2, c2)] p1 = some c1 := by
      unfold lookupFS
      simp [List.find?_cons]
    have hbne : (p1 == p2) = false := by
      simpa using hne
    have hl2 : lookupFS [(p1, c1), (p2, c2)] p2 = some c2 := by
      unfold lookupFS
      simp [List.find?_cons, hbne]
    have hsfx12 : suffixOf c1 = suffixOf c2 := by
      rw [suffixOf_eq hld1, suffixOf_eq hld2]
    have hfresh : ∀ kb ∈ MERGED_KEY_BASES, hasKeyC c1 kb = true →
        ∀ q ∈ ([] : List (String × NDArray)), q.1 ≠ kb ++ suffixOf c1 :=
      fun _ _ _ q hq => absurd hq (List.not_mem_nil q)
    have hins1 := @mergedInsert_ok_of base c1 (suffixOf c1) MERGED_KEY_BASES []
      MERGED_KEY_BASES_nodup hfresh
    have hpf1 := @processFile_ok_of base p1 c1 [] _ none hwf1 (Or.inl rfl) hins1
    refine ⟨?_, suffixOf_eq hld2⟩
    unfold convert_group
    rw [sortStrings_pair hle, convertLoop_cons_some hl1, hpf1]
    show (match convertLoop [(p1, c1), (p2, c2)] base [p2]
        ([] ++ contribOn c1 (suffixOf c1) MERGED_KEY_BASES) (some (osizeOf c1)) with
      | Except.error e => Except.error e
      | Except.ok (m, none) => Except.error ("No input files found for base '" ++ base ++ "'")
      | Except.ok (m, some o) => Except.ok (m, o)) = _
    rw [convertLoop_cons_some hl2]
    have hdup : (([] ++ contribOn c1 (suffixOf c1) MERGED_KEY_BASES)).any
        (fun p => p.1 == "latents" ++ suffixOf c2) = true := by
      apply List.any_eq_true.mpr
      refine ⟨("latents" ++ suffixOf c1, getC c1 "latents"), ?_, ?_⟩
      · rw [List.nil_append]
        unfold contribOn
        apply List.mem_map.mpr
        refine ⟨"latents", List.mem_filter.mpr ⟨by decide, (wfC_parts hwf1).1⟩, rfl⟩
      · simp [hsfx12]
    have hkeys2 := wfC_parts hwf2
    have hmi := @mergedInsert_head_dup base c2 (suffixOf c2) ("latents")
      ["original_size", "crop_ltrb", "latents_flipped", "alpha_mask"]
      ([] ++ contribOn c1 (suffixOf c1) MERGED_KEY_BASES)
      hkeys2.1 hdup
    have hpf2 : processFile base p2 c2 ([] ++ contribOn c1 (suffixOf c1) MERGED_KEY_BASES)
        (some (osizeOf c1)) =
        .error ("Duplicate merged key '" ++ ("latents" ++ suffixOf c2) ++ "' for base '" ++
          base ++ "'") := by
      rw [processFile_some_unfold]
      rw [if_neg (by rw [hkeys2.1, hkeys2.2.1, hkeys2.2.2.1]; simp)]
      rw [if_pos (show osizeOf c1 = (getC c2 "original_size").data from hsz)]
      rw [processShape_eq hld2]
      rw [show MERGED_KEY_BASES = "latents" ::
        ["original_size", "crop_ltrb", "latents_flipped", "alpha_mask"] from rfl] at hmi ⊢
      rw [hmi]
    rw [hpf2]
  · intro fs b ps m S h
    exact (convert_group_ok_elim h).2.2.1

theorem C3_duplicate_key_witness :
    convert_group
      [("img_1x1.npz",
        [("latents", ⟨[4, 32, 48], [7]⟩), ("original_size", ⟨[2], [1024, 1536]⟩),
         ("crop_ltrb", ⟨[4], [0, 0, 0, 0]⟩)]),
       ("img_2x2.npz",
        [("latents", ⟨[4, 32, 48], [8]⟩), ("original_size", ⟨[2], [1024, 1536]⟩),
         ("crop_ltrb", ⟨[4], [0, 0, 0, 0]⟩)])]
      "img" ["img_1x1.npz", "img_2x2.npz"] =
      .error ("Duplicate merged key '" ++ ("latents" ++ suffixOf
        [("latents", ⟨[4, 32, 48], [8]⟩), ("original_size", ⟨[2], [1024, 1536]⟩),
         ("crop_ltrb", ⟨[4], [0, 0, 0, 0]⟩)]) ++ "' for base '" ++ "img" ++ "'") := by
  have h := @C3_duplicate_key
    ("img_1x1.npz") ("img_2x2.npz") ("img")
    ([("latents", ⟨[4, 32, 48], [7]⟩), ("original_size", ⟨[2], [1024, 1536]⟩),
      ("crop_ltrb", ⟨[4], [0, 0, 0, 0]⟩)])
    ([("latents", ⟨[4, 32, 48], [8]⟩), ("original_size", ⟨[2], [1024, 1536]⟩),
      ("crop_ltrb", ⟨[4], [0, 0, 0, 0]⟩)])
    32 48
    (by decide) (by decide) (by decide) (by decide) (by decide) (by decide) (by decide)
  exact h.1.1

/-- C6 counterexample: a container whose `original_size` holds three
integers is merged without complaint — the merger returns the 3-tuple
(9, 9, 9) as the group's original size, so the coercion does not
produce "exactly two integers". -/
theorem C6_size_pair_counterexample :
    convert_group
      [("a.npz",
        [("latents", ⟨[1, 4, 4], [0]⟩), ("original_size", ⟨[3], [9, 9, 9]⟩),
         ("crop_ltrb", ⟨[4], [1, 2, 3, 4]⟩)])]
      "a" ["a.npz"] =
      .ok ([("latents_4x4", ⟨[1, 4, 4], [0]⟩), ("original_size_4x4", ⟨[3], [9, 9, 9]⟩),
            ("crop_ltrb_4x4", ⟨[4], [1, 2, 3, 4]⟩)], [9, 9, 9]) ∧
    ([9, 9, 9] : List Int).length ≠ 2 := by
  constructor
  · decide
  · decide

/-- C6 amended: the merger coerces `original_size` element-wise to a
tuple of integers of the same length as the stored array — with no check
that this length is two — and the original size returned for a
successfully merged group equals that tuple for every file of the group
(so it is a pair exactly when the source arrays store two values). -/
theorem C6_size_coercion {fs : List (String × Container)} {base : String}
    {paths : List String} {m : List (String × NDArray)} {S : List Int}
    (h : convert_group fs base paths = .ok (m, S)) :
    ∀ p ∈ paths, ∀ c, lookupFS fs p = some c →
      S = osizeOf c ∧ S.length = (getC c "original_size").data.length := by
  intro p hp c hc
  rcases (convert_group_ok_elim h).2.2.2 p hp with ⟨c', hc', _, hS⟩
  rw [hc] at hc'
  have hcc : c = c' := by
    simpa using hc'
  subst hcc
  refine ⟨hS.symm, ?_⟩
  rw [← hS]
  rfl

theorem C6_size_coercion_witness :
    ([9, 9, 9] : List Int) =
      osizeOf [("latents", ⟨[1, 4, 4], [0]⟩), ("original_size", ⟨[3], [9, 9, 9]⟩),
        ("crop_ltrb", ⟨[4], [1, 2, 3, 4]⟩)] ∧
    ([9, 9, 9] : List Int).length =
      (getC [("latents", ⟨[1, 4, 4], [0]⟩), ("original_size", ⟨[3], [9, 9, 9]⟩),
        ("crop_ltrb", ⟨[4], [1, 2, 3, 4]⟩)] "original_size").data.length :=
  @C6_size_coercion
    ([("a.npz",
      [("latents", ⟨[1, 4, 4], [0]⟩), ("original_size", ⟨[3], [9, 9, 9]⟩),
       ("crop_ltrb", ⟨[4], [1, 2, 3, 4]⟩)])])
    ("a") (["a.npz"])
    ([("latents_4x4", ⟨[1, 4, 4], [0]⟩), ("original_size_4x4", ⟨[3], [9, 9, 9]⟩),
      ("crop_ltrb_4x4", ⟨[4], [1, 2, 3, 4]⟩)])
    ([9, 9, 9])
    (by decide) ("a.npz") (by decide)
    [("latents", ⟨[1, 4, 4], [0]⟩), ("original_size", ⟨[3], [9, 9, 9]⟩),
     ("crop_ltrb", ⟨[4], [1, 2, 3, 4]⟩)] (by decide)

/-- C7: once the required keys and size check pass, a `latents` array
with fewer than two dimensions makes the merger fail with an
invalid-shape error naming the path and the shape; otherwise the last
two dimensions (height, width) build the suffix `_<h>x<w>`, which is
appended to every key base stored from that file. -/
theorem C7_shape_validation :
    (∀ (base path : String) (c : Container) (merged : List (String × NDArray))
        (osz : Option (List Int)),
      hasKeyC c "latents" = true → hasKeyC c "original_size" = true →
      hasKeyC c "crop_ltrb" = true →
      (osz = none ∨ osz = some (osizeOf c)) →
      (getC c "latents").shape.length < 2 →
      processFile base path c merged osz =
        .error ("Invalid latents shape in " ++ path ++ ": " ++
          pyTupleNat (getC c "latents").shape)) ∧
    (∀ (base path : String) (c : Container) (merged : List (String × NDArray))
        (osz : Option (List Int)) (s0 : List Nat) (hh ww : Nat),
      hasKeyC c "latents" = true → hasKeyC c "original_size" = true →
      hasKeyC c "crop_ltrb" = true →
      (osz = none ∨ osz = some (osizeOf c)) →
      (getC c "latents").shape = s0 ++ [hh, ww] →
      processFile base path c merged osz =
        match mergedInsert base c ("_" ++ toString hh ++ "x" ++ toString ww)
            MERGED_KEY_BASES merged with
        | .ok m' => .ok (m', osizeOf c)
        | .error e => .error e) ∧
    (∀ (base sfx : String) (c : Container) (merged m' : List (String × NDArray)),
      mergedInsert base c sfx MERGED_KEY_BASES merged = .ok m' →
      m' = merged ++ contribOn c sfx MERGED_KEY_BASES) := by
  refine ⟨?_, ?_, ?_⟩
  · intro base path c merged osz hk1 hk2 hk3 hosz hshort
    have hld := latDims_none_of_short hshort
    have hkeys' : ¬((!hasKeyC c "latents" || !hasKeyC c "original_size" ||
        !hasKeyC c "crop_ltrb") = true) := by
      rw [hk1, hk2, hk3]
      simp
    rcases hosz with ho | ho <;> subst ho
    · rw [processFile_none_unfold, if_neg hkeys', processShape_err hld]
    · rw [processFile_some_unfold, if_neg hkeys',
        if_pos (show osizeOf c = (getC c "original_size").data from rfl),
        processShape_err hld]
  · intro base path c merged osz s0 hh ww hk1 hk2 hk3 hosz hs
    have hld := latDims_of_shape hs
    have hsfx := suffixOf_eq hld
    have hkeys' : ¬((!hasKeyC c "latents" || !hasKeyC c "original_size" ||
        !hasKeyC c "crop_ltrb") = true) := by
      rw [hk1, hk2, hk3]
      simp
    rcases hosz with ho | ho <;> subst ho
    · rw [processFile_none_unfold, if_neg hkeys', processShape_eq hld, hsfx]
      rfl
    · rw [processFile_some_unfold, if_neg hkeys',
        if_pos (show osizeOf c = (getC c "original_size").data from rfl),
        processShape_eq hld, hsfx]
  · intro base sfx c merged m' h
    exact mergedInsert_ok_eq MERGED_KEY_BASES merged m' h

theorem C7_shape_validation_witness :
    processFile "b" "p.npz"
      [("latents", ⟨[5], [0]⟩), ("original_size", ⟨[2], [8, 8]⟩),
       ("crop_ltrb", ⟨[4], [0, 0, 0, 0]⟩)] [] none =
      .error ("Invalid latents shape in " ++ "p.npz" ++ ": " ++
        pyTupleNat (getC [("latents", ⟨[5], [0]⟩), ("original_size", ⟨[2], [8, 8]⟩),
          ("crop_ltrb", ⟨[4], [0, 0, 0, 0]⟩)] "latents").shape) ∧
    processFile "b" "q.npz"
      [("latents", ⟨[4, 8, 6], [0]⟩), ("original_size", ⟨[2], [8, 8]⟩),
       ("crop_ltrb", ⟨[4], [0, 0, 0, 0]⟩)] [] none =
      match mergedInsert "b"
          [("latents", ⟨[4, 8, 6], [0]⟩), ("original_size", ⟨[2], [8, 8]⟩),
           ("crop_ltrb", ⟨[4], [0, 0, 0, 0]⟩)]
          ("_" ++ toString 8 ++ "x" ++ toString 6) MERGED_KEY_BASES [] with
      | .ok m' => .ok (m', osizeOf [("latents", ⟨[4, 8, 6], [0]⟩),
          ("original_size", ⟨[2], [8, 8]⟩), ("crop_ltrb", ⟨[4], [0, 0, 0, 0]⟩)])
      | .error e => .error e := by
  constructor
  · exact C7_shape_validation.1 "b" "p.npz" _ [] none (by decide) (by decide) (by decide)
      (Or.inl rfl) (by decide)
  · exact C7_shape_validation.2.1 "b" "q.npz" _ [] none [4] 8 6 (by decide) (by decide)
      (by decide) (Or.inl rfl) (by decide)

/-- C2 counterexample: the filename `_12x34.npz` — whose only
decomposition as `<base>_<w>x<h>.npz` has an *empty* base — is accepted
by the collector (bucketed under the empty base identifier) instead of
failing the run, so "base is a non-empty string" does not hold of the
code's pattern. -/
theorem C2_filename_pattern_counterexample :
    matchSourceName "_12x34.npz" = some ("", "12", "34") ∧
    collect_groups (globNpz ["_12x34.npz"]) [] = .ok [("", ["_12x34.npz"])] ∧
    "".isEmpty = true := by
  refine ⟨by decide, by decide, by decide⟩

/-- C2 amended: a filename matches the code's pattern exactly when it
splits as `<base>_<w>x<h>.npz` with `<w>`, `<h>` nonempty runs of
decimal digit characters — Python's `\d`, i.e. any Unicode `Nd` digit,
not only `0`-`9` — and a possibly *empty* base (for names free of
newline characters, where the regex subtleties of `.` and `$` are
vacuous); the match equals every such split, so the split — and in
particular the rightmost trailing `_<w>x<h>` reading — is unique; and
the first globbed `.npz` name that does not match makes
`collect_groups` raise a format error naming that file, a hard stop
rather than a skip. -/
theorem C2_filename_pattern :
    (∀ (name b w h : String), '\n' ∉ name.data →
      (matchSourceName name = some (b, w, h) ↔ splitSpec name b w h = true)) ∧
    (∀ (l1 : List String) (nm : String) (l2 : List String)
        (acc : List (String × List String)),
      (∀ n ∈ l1, (matchSourceName n).isSome = true) →
      matchSourceName nm = none →
      collect_groups (l1 ++ nm :: l2) acc =
        .error ("Unexpected source filename format: " ++ nm)) :=
  ⟨fun _ _ _ _ hnl => matchSourceName_iff hnl,
   fun l1 nm l2 acc h1 h2 => collect_groups_first_bad l1 nm l2 acc h1 h2⟩

theorem C2_filename_pattern_witness :
    matchSourceName "a_1x2_3x4.npz" = some ("a_1x2", "3", "4") ∧
    matchSourceName "a_٣x٤.npz" = some ("a", "٣", "٤") ∧
    collect_groups (["a_1x2.npz"] ++ "bad.npz" :: []) [] =
      .error ("Unexpected source filename format: " ++ "bad.npz") := by
  refine ⟨?_, ?_, ?_⟩
  · exact (C2_filename_pattern.1 ("a_1x2_3x4.npz") ("a_1x2") ("3") ("4") (by decide)).mpr
      (by decide)
  · exact (C2_filename_pattern.1 ("a_٣x٤.npz") ("a") ("٣") ("٤") (by decide)).mpr (by decide)
  · exact C2_filename_pattern.2 ["a_1x2.npz"] ("bad.npz") [] [] (by decide) (by decide)

/-- C4: the first file of a group fixes the adopted `original_size`;
the first later file whose coerced size differs (its required keys being
present, so its turn is reached) aborts with an inconsistency error
naming both tuples and the offending path; and when a group's conversion
raises while all earlier-sorted groups succeeded, `main` stops with that
error keeping exactly the files the earlier groups wrote — nothing for
the failing base or any base sorted after it. -/
theorem C4_inconsistent_size :
    (∀ (base p : String) (c : Container) (m : List (String × NDArray)) (o : List Int),
      processFile base p c [] none = .ok (m, o) → o = osizeOf c) ∧
    (∀ (fs : List (String × Container)) (base : String) (l1 : List String) (p : String)
        (l2 : List String) (m : List (String × NDArray)) (S : List Int) (c : Container),
      convertLoop fs base l1 [] none = .ok (m, some S) →
      lookupFS fs p = some c →
      hasKeyC c "latents" = true → hasKeyC c "original_size" = true →
      hasKeyC c "crop_ltrb" = true →
      osizeOf c ≠ S →
      convertLoop fs base (l1 ++ p :: l2) [] none =
        .error ("Inconsistent original_size for '" ++ base ++ "': " ++ pyTupleInt S ++
          " vs " ++ pyTupleInt (osizeOf c) ++ " (" ++ p ++ ")")) ∧
    (∀ (fs : List (String × Container)) (ow dry : Bool) (pre : List String)
        (g1 : List (String × List String)) (b : String) (ps : List String)
        (g2 : List (String × List String)) (e : String),
      (mainLoop fs ow dry pre g1 [] 0 0 []).errorMsg = none →
      convert_group fs b ps = .error e →
      mainLoop fs ow dry pre (g1 ++ (b, ps) :: g2) [] 0 0 [] =
        ⟨(mainLoop fs ow dry pre g1 [] 0 0 []).events,
         (mainLoop fs ow dry pre g1 [] 0 0 []).written,
         (mainLoop fs ow dry pre g1 [] 0 0 []).skipped,
         (mainLoop fs ow dry pre g1 [] 0 0 []).files,
         some e⟩) := by
  refine ⟨?_, ?_, ?_⟩
  · intro base p c m o h
    exact (processFile_ok_elim h).2.1
  · intro fs base l1 p l2 m S c hloop hl hk1 hk2 hk3 hne
    rw [convertLoop_append l1 (p :: l2) [] none m (some S) hloop,
      convertLoop_cons_some hl]
    have hpf : processFile base p c m (some S) =
        .error ("Inconsistent original_size for '" ++ base ++ "': " ++ pyTupleInt S ++
          " vs " ++ pyTupleInt (osizeOf c) ++ " (" ++ p ++ ")") := by
      rw [processFile_some_unfold]
      rw [if_neg (by rw [hk1, hk2, hk3]; simp)]
      rw [if_neg (show ¬(S = (getC c "original_size").data) from fun hc => hne hc.symm)]
      rfl
    rw [hpf]
  · intro fs ow dry pre g1 b ps g2 e hpre hcg
    rw [mainLoop_append g1 ((b, ps) :: g2) [] 0 0 [] hpre, mainLoop_cons_err hcg]

theorem C4_inconsistent_size_witness :
    convertLoop
      [("a.npz", [("latents", ⟨[1, 2, 2], [0]⟩), ("original_size", ⟨[2], [10, 20]⟩),
        ("crop_ltrb", ⟨[4], [0, 0, 0, 0]⟩)]),
       ("b.npz", [("latents", ⟨[1, 4, 4], [0]⟩), ("original_size", ⟨[2], [10, 21]⟩),
        ("crop_ltrb", ⟨[4], [0, 0, 0, 0]⟩)])]
      "img" (["a.npz"] ++ "b.npz" :: []) [] none =
      .error ("Inconsistent original_size for '" ++ "img" ++ "': " ++
        pyTupleInt [10, 20] ++ " vs " ++
        pyTupleInt (osizeOf [("latents", ⟨[1, 4, 4], [0]⟩),
          ("original_size", ⟨[2], [10, 21]⟩), ("crop_ltrb", ⟨[4], [0, 0, 0, 0]⟩)]) ++
        " (" ++ "b.npz" ++ ")") ∧
    (10 : Int) = 10 := by
  constructor
  · exact C4_inconsistent_size.2.1 _ "img" ["a.npz"] "b.npz" []
      [("latents_2x2", ⟨[1, 2, 2], [0]⟩), ("original_size_2x2", ⟨[2], [10, 20]⟩),
       ("crop_ltrb_2x2", ⟨[4], [0, 0, 0, 0]⟩)]
      [10, 20]
      [("latents", ⟨[1, 4, 4], [0]⟩), ("original_size", ⟨[2], [10, 21]⟩),
       ("crop_ltrb", ⟨[4], [0, 0, 0, 0]⟩)]
      (by decide) (by decide) (by decide) (by decide) (by decide) (by decide)
  · rfl

/-- C10: the merger's validation runs before the writer looks at the
destination: when a group's `convert_group` raises (after the
earlier-sorted groups went through), the run aborts with that error for
*every* destination state and flag combination — in particular even when
that group's output name is already present in the destination and the
group would otherwise be recorded as skipped — and no event or file is
produced for the failing group or any later one. -/
theorem C10_validation_before_skip :
    ∀ (fs : List (String × Container)) (ow dry : Bool) (pre : List String)
      (g1 : List (String × List String)) (b : String) (ps : List String)
      (g2 : List (String × List String)) (e : String)
      (evs : List Event) (w s : Nat) (files : List (String × List (String × NDArray))),
      (mainLoop fs ow dry pre g1 evs w s files).errorMsg = none →
      convert_group fs b ps = .error e →
      (mainLoop fs ow dry pre (g1 ++ (b, ps) :: g2) evs w s files).errorMsg = some e ∧
      (mainLoop fs ow dry pre (g1 ++ (b, ps) :: g2) evs w s files).events =
        (mainLoop fs ow dry pre g1 evs w s files).events ∧
      (mainLoop fs ow dry pre (g1 ++ (b, ps) :: g2) evs w s files).files =
        (mainLoop fs ow dry pre g1 evs w s files).files := by
  intro fs ow dry pre g1 b ps g2 e evs w s files hpre hcg
  rw [mainLoop_append g1 ((b, ps) :: g2) evs w s files hpre, mainLoop_cons_err hcg]
  exact ⟨rfl, rfl, rfl⟩

theorem C10_validation_before_skip_witness :
    (mainLoop
      [("x_1x1.npz", [("latents", ⟨[5], [0]⟩), ("original_size", ⟨[2], [8, 8]⟩),
        ("crop_ltrb", ⟨[4], [0, 0, 0, 0]⟩)])]
      false false ["x_0008x0008_sdxl.npz"]
      ([] ++ ("x", ["x_1x1.npz"]) :: []) [] 0 0 []).errorMsg =
      some ("Invalid latents shape in " ++ "x_1x1.npz" ++ ": " ++ pyTupleNat [5]) := by
  have h := C10_validation_before_skip
    [("x_1x1.npz", [("latents", ⟨[5], [0]⟩), ("original_size", ⟨[2], [8, 8]⟩),
      ("crop_ltrb", ⟨[4], [0, 0, 0, 0]⟩)])]
    false false ["x_0008x0008_sdxl.npz"] [] "x" ["x_1x1.npz"] []
    ("Invalid latents shape in " ++ "x_1x1.npz" ++ ": " ++ pyTupleNat [5])
    [] 0 0 [] (by decide) (by decide)
  exact h.1

theorem sortedGroups_fst (g : List (String × List String)) :
    (sortedGroups g).map Prod.fst = sortStrings (g.map Prod.fst) := by
  unfold sortedGroups
  rw [List.map_map]
  rw [show (Prod.fst ∘ fun b => (b, lookupGroup g b)) = fun b : String => b from rfl]
  exact List.map_id' _

/-- C8: determinism. (1) `convert_group` is invariant under any
permutation of its path list and so, since it sorts, visits files in
lexicographic order of the full path string; (2) the top-level loop
visits the groups exactly in sorted order of base identifier; (3) two
runs over the same source-directory contents, whatever order the
directory listing is presented in, produce identical events, counts,
written files and error, provided every listed `.npz` name matches the
source-name pattern (so that group collection succeeds). -/
theorem C8_determinism :
    (∀ (fs : List (String × Container)) (b : String) (ps ps' : List String),
        ps.Perm ps' → convert_group fs b ps = convert_group fs b ps') ∧
    (∀ g : List (String × List String),
        (sortedGroups g).map Prod.fst = sortStrings (g.map Prod.fst) ∧
        List.Sorted strLeP ((sortedGroups g).map Prod.fst)) ∧
    (∀ (fs : List (String × Container)) (listing listing' pre : List String) (ow dry : Bool),
        listing.Perm listing' →
        (∀ n ∈ globNpz listing, (matchSourceName n).isSome = true) →
        runMain fs listing pre ow dry = runMain fs listing' pre ow dry) := by
  refine ⟨fun fs b ps ps' h => convert_group_congr_perm h, fun g => ?_,
    fun fs l l' pre ow dry hp hall => runMain_perm hp hall⟩
  refine ⟨sortedGroups_fst g, ?_⟩
  rw [sortedGroups_fst g]
  exact sortStrings_sorted _

theorem C8_determinism_witness :
    convert_group
        [("img_3x4.npz", [("latents", ⟨[3, 4], [0]⟩), ("original_size", ⟨[2], [8, 9]⟩),
            ("crop_ltrb", ⟨[4], [0, 0, 0, 0]⟩)]),
         ("img_1x2.npz", [("latents", ⟨[1, 2], [0]⟩), ("original_size", ⟨[2], [8, 9]⟩),
            ("crop_ltrb", ⟨[4], [0, 0, 0, 0]⟩)])]
        "img" ["img_3x4.npz", "img_1x2.npz"] =
      convert_group
        [("img_3x4.npz", [("latents", ⟨[3, 4], [0]⟩), ("original_size", ⟨[2], [8, 9]⟩),
            ("crop_ltrb", ⟨[4], [0, 0, 0, 0]⟩)]),
         ("img_1x2.npz", [("latents", ⟨[1, 2], [0]⟩), ("original_size", ⟨[2], [8, 9]⟩),
            ("crop_ltrb", ⟨[4], [0, 0, 0, 0]⟩)])]
        "img" ["img_1x2.npz", "img_3x4.npz"] ∧
    runMain
        [("img_3x4.npz", [("latents", ⟨[3, 4], [0]⟩), ("original_size", ⟨[2], [8, 9]⟩),
            ("crop_ltrb", ⟨[4], [0, 0, 0, 0]⟩)]),
         ("img_1x2.npz", [("latents", ⟨[1, 2], [0]⟩), ("original_size", ⟨[2], [8, 9]⟩),
            ("crop_ltrb", ⟨[4], [0, 0, 0, 0]⟩)])]
        ["img_3x4.npz", "img_1x2.npz"] [] false false =
      runMain
        [("img_3x4.npz", [("latents", ⟨[3, 4], [0]⟩), ("original_size", ⟨[2], [8, 9]⟩),
            ("crop_ltrb", ⟨[4], [0, 0, 0, 0]⟩)]),
         ("img_1x2.npz", [("latents", ⟨[1, 2], [0]⟩), ("original_size", ⟨[2], [8, 9]⟩),
            ("crop_ltrb", ⟨[4], [0, 0, 0, 0]⟩)])]
        ["img_1x2.npz", "img_3x4.npz"] [] false false :=
  ⟨C8_determinism.1 _ "img" _ _ (by decide),
   C8_determinism.2.2 _ ["img_3x4.npz", "img_1x2.npz"] ["img_1x2.npz", "img_3x4.npz"]
     [] false false (by decide) (by decide)⟩

/-- C5: the writer's decision order. (1) When the output name already
exists (in the pre-existing destination or among this run's writes) and
overwrite is off, the group is recorded as skipped and the file list is
left untouched — this branch wins even in dry-run mode. (2) Otherwise,
with dry-run off, the merged mapping is written under the output name.
(3) The dry-run invariant at the level of the whole run: a dry run
creates no file, regardless of the overwrite setting, while its events,
counters and error agree with the non-dry run (ok events becoming plan
events) and its planned-filename list equals exactly the list of names
the non-dry run writes. -/
theorem C5_writer_decision :
    (∀ (fs : List (String × Container)) (dry : Bool) (pre : List String)
        (base : String) (paths : List String) (rest : List (String × List String))
        (evs : List Event) (w s : Nat) (files : List (String × List (String × NDArray)))
        (merged : List (String × NDArray)) (w0 h0 : Int) (t : List Int),
        convert_group fs base paths = .ok (merged, w0 :: h0 :: t) →
        (pre.contains (outName base w0 h0) ||
          files.any (fun f => f.1 == outName base w0 h0)) = true →
        mainLoop fs false dry pre ((base, paths) :: rest) evs w s files =
          mainLoop fs false dry pre rest
            (evs ++ [Event.skip (outName base w0 h0)]) w (s + 1) files) ∧
    (∀ (fs : List (String × Container)) (ow : Bool) (pre : List String)
        (base : String) (paths : List String) (rest : List (String × List String))
        (evs : List Event) (w s : Nat) (files : List (String × List (String × NDArray)))
        (merged : List (String × NDArray)) (w0 h0 : Int) (t : List Int),
        convert_group fs base paths = .ok (merged, w0 :: h0 :: t) →
        ((pre.contains (outName base w0 h0) ||
          files.any (fun f => f.1 == outName base w0 h0)) && !ow) = false →
        mainLoop fs ow false pre ((base, paths) :: rest) evs w s files =
          mainLoop fs ow false pre rest
            (evs ++ [Event.ok (outName base w0 h0)]) (w + 1) s
            (files ++ [(outName base w0 h0, merged)])) ∧
    (∀ (fs : List (String × Container)) (listing pre : List String) (ow : Bool),
        (runMain fs listing pre ow true).files = [] ∧
        (runMain fs listing pre ow true).events =
          (runMain fs listing pre ow false).events.map okToPlanEv ∧
        (runMain fs listing pre ow true).written =
          (runMain fs listing pre ow false).written ∧
        (runMain fs listing pre ow true).skipped =
          (runMain fs listing pre ow false).skipped ∧
        (runMain fs listing pre ow true).errorMsg =
          (runMain fs listing pre ow false).errorMsg ∧
        planNames (runMain fs listing pre ow true).events =
          ((runMain fs listing pre ow false).files).map Prod.fst) := by
  refine ⟨?_, ?_, ?_⟩
  · intro fs dry pre base paths rest evs w s files merged w0 h0 t h hex
    rw [mainLoop_cons_ok h, if_pos]
    rw [hex]
    rfl
  · intro fs ow pre base paths rest evs w s files merged w0 h0 t h hex
    rw [mainLoop_cons_ok h, if_neg, if_neg]
    · exact Bool.false_ne_true
    · rw [hex]
      exact Bool.false_ne_true
  · intro fs listing pre ow
    rcases hc : collect_groups (globNpz listing) [] with e | g
    · rw [runMain_collect_err hc, runMain_collect_err hc]
      exact ⟨rfl, rfl, rfl, rfl, rfl, rfl⟩
    · rw [runMain_collect_ok hc, runMain_collect_ok hc]
      by_cases hemp : g.isEmpty
      · rw [if_pos hemp, if_pos hemp]
        exact ⟨rfl, rfl, rfl, rfl, rfl, rfl⟩
      · rw [if_neg hemp, if_neg hemp]
        have hnd0 : (g.map Prod.fst).Nodup :=
          collect_groups_ok_keys_nodup _ [] g hc (by simp)
        have hnd : ((sortedGroups g).map Prod.fst).Nodup := by
          rw [sortedGroups_fst]
          exact (sortStrings_perm _).nodup_iff.mpr hnd0
        rcases @dry_wet_loop fs ow pre
            (sortedGroups g) [] [] 0 0 [] rfl hnd (fun f hf => absurd hf (by simp))
          with ⟨Δ, hΔ, hdry, hplan⟩
        rw [hdry]
        refine ⟨rfl, rfl, rfl, rfl, rfl, ?_⟩
        rw [hΔ, List.nil_append]
        rw [hdry] at hplan
        exact hplan

theorem C5_writer_decision_witness :
    mainLoop [("img_1x2.npz", [("latents", ⟨[1, 2], [0]⟩), ("original_size", ⟨[2], [8, 9]⟩),
          ("crop_ltrb", ⟨[4], [0, 0, 0, 0]⟩)])]
        false true [outName "img" 8 9] [("img", ["img_1x2.npz"])] [] 0 0 [] =
      mainLoop [("img_1x2.npz", [("latents", ⟨[1, 2], [0]⟩), ("original_size", ⟨[2], [8, 9]⟩),
          ("crop_ltrb", ⟨[4], [0, 0, 0, 0]⟩)])]
        false true [outName "img" 8 9] [] ([] ++ [Event.skip (outName "img" 8 9)]) 0 (0 + 1) [] ∧
    mainLoop [("img_1x2.npz", [("latents", ⟨[1, 2], [0]⟩), ("original_size", ⟨[2], [8, 9]⟩),
          ("crop_ltrb", ⟨[4], [0, 0, 0, 0]⟩)])]
        false false [] [("img", ["img_1x2.npz"])] [] 0 0 [] =
      mainLoop [("img_1x2.npz", [("latents", ⟨[1, 2], [0]⟩), ("original_size", ⟨[2], [8, 9]⟩),
          ("crop_ltrb", ⟨[4], [0, 0, 0, 0]⟩)])]
        false false [] [] ([] ++ [Event.ok (outName "img" 8 9)]) (0 + 1) 0
        ([] ++ [(outName "img" 8 9,
          [("latents_1x2", ⟨[1, 2], [0]⟩), ("original_size_1x2", ⟨[2], [8, 9]⟩),
           ("crop_ltrb_1x2", ⟨[4], [0, 0, 0, 0]⟩)])]) :=
  ⟨C5_writer_decision.1
      [("img_1x2.npz", [("latents", ⟨[1, 2], [0]⟩), ("original_size", ⟨[2], [8, 9]⟩),
        ("crop_ltrb", ⟨[4], [0, 0, 0, 0]⟩)])]
      true [outName "img" 8 9] "img" ["img_1x2.npz"] [] [] 0 0 []
      [("latents_1x2", ⟨[1, 2], [0]⟩), ("original_size_1x2", ⟨[2], [8, 9]⟩),
       ("crop_ltrb_1x2", ⟨[4], [0, 0, 0, 0]⟩)] 8 9 []
      (by decide) (by decide),
   C5_writer_decision.2.1
      [("img_1x2.npz", [("latents", ⟨[1, 2], [0]⟩), ("original_size", ⟨[2], [8, 9]⟩),
        ("crop_ltrb", ⟨[4], [0, 0, 0, 0]⟩)])]
      false [] "img" ["img_1x2.npz"] [] [] 0 0 []
      [("latents_1x2", ⟨[1, 2], [0]⟩), ("original_size_1x2", ⟨[2], [8, 9]⟩),
       ("crop_ltrb_1x2", ⟨[4], [0, 0, 0, 0]⟩)] 8 9 []
      (by decide) (by decide)⟩

theorem getA_cons {a : String × NDArray} {rest : List (String × NDArray)} {k : String} :
    getA (a :: rest) k = if a.1 == k then some a.2 else getA rest k := by
  unfold getA
  cases hx : (a.1 == k) <;> simp [List.find?_cons, hx]

theorem getA_some_of_mem : ∀ {m : List (String × NDArray)}, (keysOf m).Nodup →
    ∀ {q : String × NDArray}, q ∈ m → getA m q.1 = some q.2 := by
  intro m
  induction m with
  | nil =>
    intro _ q hq
    cases hq
  | cons a rest ih =>
    intro hnd q hq
    have hnd' : (a.1 :: keysOf rest).Nodup := hnd
    rcases List.mem_cons.mp hq with hq | hq
    · subst hq
      rw [getA_cons, if_pos (by simp)]
    · have hne : (a.1 == q.1) = false := by
        apply beq_eq_false_iff_ne.mpr
        intro he
        exact (List.nodup_cons.mp hnd').1 (he ▸ List.mem_map.mpr ⟨q, hq, rfl⟩)
      rw [getA_cons, if_neg (by simp [hne])]
      exact ih (List.nodup_cons.mp hnd').2 hq

theorem getA_some_elim : ∀ {m : List (String × NDArray)} {k : String} {v : NDArray},
    getA m k = some v → (k, v) ∈ m := by
  intro m
  induction m with
  | nil =>
    intro k v h
    cases h
  | cons a rest ih =>
    intro k v h
    rw [getA_cons] at h
    by_cases hx : (a.1 == k) = true
    · rw [if_pos hx] at h
      have hk : a.1 = k := by simpa using hx
      have hv : a.2 = v := by simpa using h
      exact List.mem_cons.mpr (Or.inl (by rw [← hk, ← hv]))
    · rw [if_neg hx] at h
      exact List.mem_cons.mpr (Or.inr (ih h))

theorem getA_eq_none_of_not_mem : ∀ {m : List (String × NDArray)} {k : String},
    k ∉ keysOf m → getA m k = none := by
  intro m
  induction m with
  | nil =>
    intro k _
    rfl
  | cons a rest ih =>
    intro k hk
    have h1 : a.1 ≠ k := fun he => hk (he ▸ List.mem_cons_self _ _)
    have h2 : k ∉ keysOf rest := fun hm => hk (List.mem_cons_of_mem _ hm)
    rw [getA_cons, if_neg (by simp [h1])]
    exact ih h2

theorem getA_eq_of_perm {m m' : List (String × NDArray)} (hp : m.Perm m')
    (hnd : (keysOf m).Nodup) (k : String) : getA m k = getA m' k := by
  have hnd' : (keysOf m').Nodup := (hp.map Prod.fst).nodup_iff.mp hnd
  cases hv : getA m k with
  | none =>
    have hk : k ∉ keysOf m := by
      intro hk
      rcases List.mem_map.mp hk with ⟨q, hq, hq1⟩
      rw [← hq1, getA_some_of_mem hnd hq] at hv
      cases hv
    have hk' : k ∉ keysOf m' := fun hm =>
      hk ((hp.map Prod.fst).mem_iff.mpr hm)
    rw [getA_eq_none_of_not_mem hk']
  | some v =>
    have hmem : (k, v) ∈ m' := hp.subset (getA_some_elim hv)
    exact (getA_some_of_mem hnd' hmem).symm

theorem forall2_mem_right {α β : Type} {R : α → β → Prop} :
    ∀ {l₁ : List α} {l₂ : List β}, List.Forall₂ R l₁ l₂ →
      ∀ {b : β}, b ∈ l₂ → ∃ a ∈ l₁, R a b := by
  intro l₁ l₂ h
  induction h with
  | nil =>
    intro b hb
    cases hb
  | cons hab _ ih =>
    intro b hb
    rcases List.mem_cons.mp hb with hb | hb
    · exact ⟨_, List.mem_cons_self _ _, hb ▸ hab⟩
    · rcases ih hb with ⟨a, ha, hr⟩
      exact ⟨a, List.mem_cons_of_mem _ ha, hr⟩

theorem forall2_swap {α β : Type} {R : α → β → Prop} :
    ∀ {l₁ : List α} {l₂ : List β}, List.Forall₂ R l₁ l₂ →
      List.Forall₂ (fun b a => R a b) l₂ l₁ := by
  intro l₁ l₂ h
  induction h with
  | nil => exact List.Forall₂.nil
  | cons hab _ ih => exact List.Forall₂.cons hab ih

theorem contribAt_congr {fs fs' : List (String × Container)} {p q : String}
    (h : lookupFS fs' q = lookupFS fs p) : contribAt fs' q = contribAt fs p := by
  unfold contribAt
  rw [h]

theorem map_contrib_forall2 {fs fs' : List (String × Container)} :
    ∀ {ps qs : List String},
      List.Forall₂ (fun p q => lookupFS fs' q = lookupFS fs p) ps qs →
      qs.map (contribAt fs') = ps.map (contribAt fs) := by
  intro ps qs h
  induction h with
  | nil => rfl
  | cons hpq _ ih =>
    simp only [List.map_cons, ih, contribAt_congr hpq]

theorem convert_group_transfer {fs fs' : List (String × Container)} {b b' : String}
    {ps qs : List String}
    (hcorr : List.Forall₂ (fun p q => lookupFS fs' q = lookupFS fs p) ps qs)
    {m : List (String × NDArray)} {S : List Int}
    (h : convert_group fs b ps = .ok (m, S)) :
    ∃ m', convert_group fs' b' qs = .ok (m', S) ∧ m.Perm m' ∧
      (keysOf m).Nodup ∧ ∀ k, getA m k = getA m' k := by
  obtain ⟨hne, hm, hnd, hall⟩ := convert_group_ok_elim h
  have hqne : qs ≠ [] := by
    intro he
    apply hne
    have hlen := hcorr.length_eq
    rw [he] at hlen
    exact List.length_eq_zero.mp hlen
  have hall' : ∀ q ∈ qs, ∃ c, lookupFS fs' q = some c ∧ wfC c = true ∧ osizeOf c = S := by
    intro q hq
    obtain ⟨p, hp, hlk⟩ := forall2_mem_right hcorr hq
    obtain ⟨c, h1, h2, h3⟩ := hall p hp
    exact ⟨c, by rw [hlk, h1], h2, h3⟩
  have hmapeq : qs.map (contribAt fs') = ps.map (contribAt fs) := map_contrib_forall2 hcorr
  have hperm : (((sortStrings qs).map (contribAt fs')).flatten).Perm m := by
    rw [hm]
    refine List.Perm.flatten ?_
    refine ((sortStrings_perm qs).map (contribAt fs')).trans ?_
    rw [hmapeq]
    exact ((sortStrings_perm ps).map (contribAt fs)).symm
  have hnd' : (keysOf (((sortStrings qs).map (contribAt fs')).flatten)).Nodup :=
    (hperm.map Prod.fst).nodup_iff.mpr hnd
  refine ⟨_, convert_group_ok_of hqne hall' hnd', hperm.symm, hnd,
    fun k => getA_eq_of_perm hperm.symm hnd k⟩

theorem convert_group_transfer_err {fs fs' : List (String × Container)} {b b' : String}
    {ps qs : List String}
    (hcorr : List.Forall₂ (fun p q => lookupFS fs' q = lookupFS fs p) ps qs)
    {e : String} (h : convert_group fs b ps = .error e) :
    ∃ e', convert_group fs' b' qs = .error e' := by
  rcases hq : convert_group fs' b' qs with e' | ⟨m', S'⟩
  · exact ⟨e', rfl⟩
  · exfalso
    have hcorr' : List.Forall₂ (fun q p => lookupFS fs p = lookupFS fs' q) qs ps :=
      (forall2_swap hcorr).imp (fun _ _ hr => hr.symm)
    obtain ⟨m, hok, _⟩ := @convert_group_transfer fs' fs b' b qs ps hcorr' m' S' hq
    rw [h] at hok
    cases hok

theorem forall2_append_both {α β : Type} {R : α → β → Prop} :
    ∀ {l1 : List α} {l2 : List β} {u1 : List α} {u2 : List β},
      List.Forall₂ R l1 l2 → List.Forall₂ R u1 u2 →
      List.Forall₂ R (l1 ++ u1) (l2 ++ u2) := by
  intro l1 l2 u1 u2 h1 h2
  induction h1 with
  | nil => exact h2
  | cons hab _ ih => exact List.Forall₂.cons hab ih

theorem forall2_files_any {files files' : List (String × List (String × NDArray))}
    (h : List.Forall₂ (fun a b => a.1 = b.1 ∧ ∀ k, getA a.2 k = getA b.2 k) files files')
    (name : String) :
    files.any (fun f => f.1 == name) = files'.any (fun f => f.1 == name) := by
  induction h with
  | nil => rfl
  | cons hab _ ih => simp only [List.any_cons, hab.1, ih]

theorem forall2_files_fst {files files' : List (String × List (String × NDArray))}
    (h : List.Forall₂ (fun a b => a.1 = b.1 ∧ ∀ k, getA a.2 k = getA b.2 k) files files') :
    files.map Prod.fst = files'.map Prod.fst := by
  induction h with
  | nil => rfl
  | cons hab _ ih => simp only [List.map_cons, hab.1, ih]

theorem mainLoop_rename {fs fs' : List (String × Container)} {ow dry : Bool} {pre : List String} :
    ∀ {gs gs' : List (String × List String)},
      List.Forall₂ (fun g g' => g.1 = g'.1 ∧
        List.Forall₂ (fun p q => lookupFS fs' q = lookupFS fs p) g.2 g'.2) gs gs' →
      ∀ (evs : List Event) (w s : Nat)
        (files files' : List (String × List (String × NDArray))),
        List.Forall₂ (fun a b => a.1 = b.1 ∧ ∀ k, getA a.2 k = getA b.2 k) files files' →
        (mainLoop fs ow dry pre gs evs w s files).events =
          (mainLoop fs' ow dry pre gs' evs w s files').events ∧
        (mainLoop fs ow dry pre gs evs w s files).written =
          (mainLoop fs' ow dry pre gs' evs w s files').written ∧
        (mainLoop fs ow dry pre gs evs w s files).skipped =
          (mainLoop fs' ow dry pre gs' evs w s files').skipped ∧
        ((mainLoop fs ow dry pre gs evs w s files).errorMsg).isSome =
          ((mainLoop fs' ow dry pre gs' evs w s files').errorMsg).isSome ∧
        List.Forall₂ (fun a b => a.1 = b.1 ∧ ∀ k, getA a.2 k = getA b.2 k)
          (mainLoop fs ow dry pre gs evs w s files).files
          (mainLoop fs' ow dry pre gs' evs w s files').files := by
  intro gs gs' hgs
  induction hgs with
  | nil =>
    intro evs w s files files' hfiles
    rw [mainLoop_nil, mainLoop_nil]
    exact ⟨rfl, rfl, rfl, rfl, hfiles⟩
  | @cons a b l1 l2 hpair hrest ih =>
    obtain ⟨base, paths⟩ := a
    obtain ⟨base', paths'⟩ := b
    obtain ⟨hbase, hcorr⟩ := hpair
    have hbase' : base = base' := hbase
    subst hbase'
    intro evs w s files files' hfiles
    rcases hcv : convert_group fs base paths with e | ⟨m, S⟩
    · obtain ⟨e', hcv'⟩ := @convert_group_transfer_err fs fs' base base paths paths' hcorr e hcv
      rw [mainLoop_cons_err hcv, mainLoop_cons_err hcv']
      exact ⟨rfl, rfl, rfl, rfl, hfiles⟩
    · obtain ⟨m', hcv', hperm, hnd, hget⟩ :=
        @convert_group_transfer fs fs' base base paths paths' hcorr m S hcv
      rcases S with _ | ⟨w0, t0⟩
      · rw [mainLoop_cons_short hcv (by simp), mainLoop_cons_short hcv' (by simp)]
        exact ⟨rfl, rfl, rfl, rfl, hfiles⟩
      rcases t0 with _ | ⟨h0, t⟩
      · rw [mainLoop_cons_short hcv (by simp), mainLoop_cons_short hcv' (by simp)]
        exact ⟨rfl, rfl, rfl, rfl, hfiles⟩
      · rw [mainLoop_cons_ok hcv, mainLoop_cons_ok hcv']
        rw [← forall2_files_any hfiles (outName base w0 h0)]
        cases hcond : ((pre.contains (outName base w0 h0) ||
            files.any fun f => f.1 == outName base w0 h0) && !ow)
        · simp only [hcond, Bool.false_eq_true, if_false]
          cases dry
          · simp only [Bool.false_eq_true, if_false]
            apply ih
            exact forall2_append_both hfiles
              (List.Forall₂.cons ⟨rfl, hget⟩ List.Forall₂.nil)
          · simp only [eq_self_iff_true, if_true]
            exact ih _ _ _ _ _ hfiles
        · simp only [hcond, eq_self_iff_true, if_true]
          exact ih _ _ _ _ _ hfiles

theorem addToGroup_map {f : String → String} :
    ∀ (g : List (String × List String)) (b p : String),
      addToGroup (g.map (fun q => (q.1, q.2.map f))) b (f p) =
        (addToGroup g b p).map (fun q => (q.1, q.2.map f)) := by
  intro g
  induction g with
  | nil =>
    intro b p
    rfl
  | cons q rest ih =>
    intro b p
    obtain ⟨b0, ps⟩ := q
    cases hb : (b0 == b)
    · simp only [List.map_cons, addToGroup, hb, Bool.false_eq_true, if_false, ih]
    · simp only [List.map_cons, addToGroup, hb, if_true, List.map_append, List.map_nil]

theorem lookupGroup_map {f : String → String} :
    ∀ (g : List (String × List String)) (b : String),
      lookupGroup (g.map (fun q => (q.1, q.2.map f))) b = (lookupGroup g b).map f := by
  intro g
  induction g with
  | nil =>
    intro b
    rfl
  | cons q rest ih =>
    intro b
    obtain ⟨b0, ps⟩ := q
    cases hb : (b0 == b)
    · simp only [List.map_cons, lookupGroup_cons, hb, Bool.false_eq_true, if_false, ih]
    · simp only [List.map_cons, lookupGroup_cons, hb, if_true]

theorem collect_groups_map {f : String → String} :
    ∀ (l : List String) (acc G : List (String × List String)),
      (∀ n ∈ l, ∃ b w h w2 h2, matchSourceName n = some (b, w, h) ∧
        matchSourceName (f n) = some (b, w2, h2)) →
      collect_groups l acc = .ok G →
      collect_groups (l.map f) (acc.map (fun q => (q.1, q.2.map f))) =
        .ok (G.map (fun q => (q.1, q.2.map f))) := by
  intro l
  induction l with
  | nil =>
    intro acc G _ h
    simp only [collect_groups, Except.ok.injEq] at h
    subst h
    rfl
  | cons nm rest ih =>
    intro acc G hm h
    obtain ⟨b, w, hh, w2, h2, hmn, hmf⟩ := hm nm (List.mem_cons_self _ _)
    rw [collect_groups, hmn] at h
    have h' : collect_groups rest (addToGroup acc b nm) = Except.ok G := h
    simp only [List.map_cons]
    rw [collect_groups, hmf]
    show collect_groups (rest.map f)
        (addToGroup (acc.map (fun q => (q.1, q.2.map f))) b (f nm)) =
      Except.ok (G.map (fun q => (q.1, q.2.map f)))
    rw [addToGroup_map]
    exact ih _ _ (fun n hn => hm n (List.mem_cons_of_mem _ hn)) h'

theorem sortedGroups_map {f : String → String} (G : List (String × List String)) :
    sortedGroups (G.map (fun q => (q.1, q.2.map f))) =
      (sortedGroups G).map (fun q => (q.1, q.2.map f)) := by
  unfold sortedGroups
  have hkeys : (G.map (fun q : String × List String => (q.1, q.2.map f))).map Prod.fst =
      G.map Prod.fst := by
    rw [List.map_map]
    rfl
  rw [hkeys, List.map_map]
  apply List.map_congr_left
  intro b _
  show (b, lookupGroup (G.map (fun q => (q.1, q.2.map f))) b) = (b, (lookupGroup G b).map f)
  rw [lookupGroup_map]

theorem forall2_map_right {α β : Type} {R : α → β → Prop} {l : List α} {F : α → β}
    (h : ∀ a ∈ l, R a (F a)) : List.Forall₂ R l (l.map F) := by
  induction l with
  | nil => exact List.Forall₂.nil
  | cons a rest ih =>
    exact List.Forall₂.cons (h a (List.mem_cons_self _ _))
      (ih (fun x hx => h x (List.mem_cons_of_mem _ hx)))

theorem runMain_rename {fs fs' : List (String × Container)} {f : String → String}
    {listing listing' pre : List String} {ow dry : Bool}
    (hg : globNpz listing' = (globNpz listing).map f)
    (hmatch : ∀ n ∈ globNpz listing, ∃ b w h w2 h2,
      matchSourceName n = some (b, w, h) ∧ matchSourceName (f n) = some (b, w2, h2))
    (hlk : ∀ p ∈ globNpz listing, lookupFS fs' (f p) = lookupFS fs p) :
    (runMain fs listing pre ow dry).events = (runMain fs' listing' pre ow dry).events ∧
    (runMain fs listing pre ow dry).written = (runMain fs' listing' pre ow dry).written ∧
    (runMain fs listing pre ow dry).skipped = (runMain fs' listing' pre ow dry).skipped ∧
    ((runMain fs listing pre ow dry).errorMsg).isSome =
      ((runMain fs' listing' pre ow dry).errorMsg).isSome ∧
    List.Forall₂ (fun a b => a.1 = b.1 ∧ ∀ k, getA a.2 k = getA b.2 k)
      (runMain fs listing pre ow dry).files (runMain fs' listing' pre ow dry).files := by
  have hall : ∀ n ∈ globNpz listing, (matchSourceName n).isSome = true := by
    intro n hn
    obtain ⟨b, w, h, w2, h2, hm, _⟩ := hmatch n hn
    rw [hm]
    rfl
  obtain ⟨G, hG⟩ := collect_groups_ok_of_all _ [] hall
  have hG' : collect_groups (globNpz listing') [] =
      .ok (G.map (fun q => (q.1, q.2.map f))) := by
    rw [hg]
    exact collect_groups_map _ [] G hmatch hG
  rw [runMain_collect_ok hG, runMain_collect_ok hG']
  have hemp : (G.map (fun q : String × List String => (q.1, q.2.map f))).isEmpty =
      G.isEmpty := by
    cases G <;> rfl
  cases he : G.isEmpty
  · rw [hemp, he]
    simp only [Bool.false_eq_true, if_false]
    apply mainLoop_rename
    · rw [sortedGroups_map]
      apply forall2_map_right
      intro g hgmem
      refine ⟨rfl, ?_⟩
      apply forall2_map_right
      intro p hp
      apply hlk
      have hlg : g.2 = lookupGroup G g.1 := by
        rcases List.mem_map.mp hgmem with ⟨b, _, hbe⟩
        rw [← hbe]
      rw [hlg] at hp
      rw [collect_groups_ok_lookup _ [] G hG g.1] at hp
      have hp2 : p ∈ globNpz listing ∧ baseOf p = some g.1 := by
        simpa [lookupGroup] using hp
      exact hp2.1
    · exact List.Forall₂.nil
  · rw [hemp, he]
    simp only [eq_self_iff_true, if_true]
    exact ⟨trivial, trivial, trivial, trivial, List.Forall₂.nil⟩

/-- C9: the `w`/`h` parsed from a filename only gate the format and the
base split. (1) Per group: renaming a group's files (same containers
behind the new paths) keeps `convert_group` succeeding with the same
original size — hence the same output filename — and a merged mapping
that is a permutation of the original binding every key to the same
array. (2) Grouping: when every filename of the source listing and its
renaming match the pattern with the same base, the collector returns
the same buckets in the same order, with the paths renamed in place.
(3) Whole run: two runs over source directories that differ only in
the `<w>x<h>` portions of their filenames produce identical events,
written/skipped counts, output filenames, abort behaviour, and
extensionally identical output file contents. -/
theorem C9_wh_only_gates_format :
    (∀ (fs fs' : List (String × Container)) (b : String) (ps qs : List String),
        List.Forall₂ (fun p q => lookupFS fs' q = lookupFS fs p) ps qs →
        ∀ (m : List (String × NDArray)) (S : List Int),
          convert_group fs b ps = .ok (m, S) →
          ∃ m', convert_group fs' b qs = .ok (m', S) ∧ m.Perm m' ∧
            ∀ k, getA m k = getA m' k) ∧
    (∀ (f : String → String) (listing : List String),
        (∀ n ∈ globNpz listing, ∃ b w h w2 h2, matchSourceName n = some (b, w, h) ∧
          matchSourceName (f n) = some (b, w2, h2)) →
        ∀ G, collect_groups (globNpz listing) [] = .ok G →
          collect_groups ((globNpz listing).map f) [] =
            .ok (G.map (fun q => (q.1, q.2.map f)))) ∧
    (∀ (fs fs' : List (String × Container)) (f : String → String)
        (listing listing' pre : List String) (ow dry : Bool),
        globNpz listing' = (globNpz listing).map f →
        (∀ n ∈ globNpz listing, ∃ b w h w2 h2, matchSourceName n = some (b, w, h) ∧
          matchSourceName (f n) = some (b, w2, h2)) →
        (∀ p ∈ globNpz listing, lookupFS fs' (f p) = lookupFS fs p) →
        (runMain fs listing pre ow dry).events = (runMain fs' listing' pre ow dry).events ∧
        (runMain fs listing pre ow dry).written = (runMain fs' listing' pre ow dry).written ∧
        (runMain fs listing pre ow dry).skipped = (runMain fs' listing' pre ow dry).skipped ∧
        ((runMain fs listing pre ow dry).errorMsg).isSome =
          ((runMain fs' listing' pre ow dry).errorMsg).isSome ∧
        ((runMain fs listing pre ow dry).files).map Prod.fst =
          ((runMain fs' listing' pre ow dry).files).map Prod.fst ∧
        List.Forall₂ (fun a b => a.1 = b.1 ∧ ∀ k, getA a.2 k = getA b.2 k)
          (runMain fs listing pre ow dry).files (runMain fs' listing' pre ow dry).files) := by
  refine ⟨?_, ?_, ?_⟩
  · intro fs fs' b ps qs hcorr m S h
    obtain ⟨m', hok, hperm, _, hget⟩ := @convert_group_transfer fs fs' b b ps qs hcorr m S h
    exact ⟨m', hok, hperm, hget⟩
  · intro f listing hmatch G hG
    exact collect_groups_map _ [] G hmatch hG
  · intro fs fs' f listing listing' pre ow dry hg hmatch hlk
    obtain ⟨h1, h2, h3, h4, h5⟩ :=
      @runMain_rename fs fs' f listing listing' pre ow dry hg hmatch hlk
    exact ⟨h1, h2, h3, h4, forall2_files_fst h5, h5⟩

theorem C9_wh_only_gates_format_witness :
    (runMain
        [("img_1x2.npz", [("latents", ⟨[1, 2], [0]⟩), ("original_size", ⟨[2], [8, 9]⟩),
          ("crop_ltrb", ⟨[4], [0, 0, 0, 0]⟩)])]
        ["img_1x2.npz"] [] false false).events =
      (runMain
        [("img_7x7.npz", [("latents", ⟨[1, 2], [0]⟩), ("original_size", ⟨[2], [8, 9]⟩),
          ("crop_ltrb", ⟨[4], [0, 0, 0, 0]⟩)])]
        ["img_7x7.npz"] [] false false).events ∧
    ((runMain
        [("img_1x2.npz", [("latents", ⟨[1, 2], [0]⟩), ("original_size", ⟨[2], [8, 9]⟩),
          ("crop_ltrb", ⟨[4], [0, 0, 0, 0]⟩)])]
        ["img_1x2.npz"] [] false false).files).map Prod.fst =
      ((runMain
        [("img_7x7.npz", [("latents", ⟨[1, 2], [0]⟩), ("original_size", ⟨[2], [8, 9]⟩),
          ("crop_ltrb", ⟨[4], [0, 0, 0, 0]⟩)])]
        ["img_7x7.npz"] [] false false).files).map Prod.fst := by
  have h := C9_wh_only_gates_format.2.2
    [("img_1x2.npz", [("latents", ⟨[1, 2], [0]⟩), ("original_size", ⟨[2], [8, 9]⟩),
      ("crop_ltrb", ⟨[4], [0, 0, 0, 0]⟩)])]
    [("img_7x7.npz", [("latents", ⟨[1, 2], [0]⟩), ("original_size", ⟨[2], [8, 9]⟩),
      ("crop_ltrb", ⟨[4], [0, 0, 0, 0]⟩)])]
    (fun _ => "img_7x7.npz") ["img_1x2.npz"] ["img_7x7.npz"] [] false false
    (by decide)
    (by
      intro n hn
      have hgl : globNpz ["img_1x2.npz"] = ["img_1x2.npz"] := by decide
      rw [hgl] at hn
      have hn' : n = "img_1x2.npz" := by simpa using hn
      subst hn'
      exact ⟨"img", "1", "2", "7", "7", by decide, by decide⟩)
    (by
      intro p hp
      have hgl : globNpz ["img_1x2.npz"] = ["img_1x2.npz"] := by decide
      rw [hgl] at hp
      have hp' : p = "img_1x2.npz" := by simpa using hp
      subst hp'
      decide)
  exact ⟨h.1, h.2.2.2.2.1⟩
